import Mathlib

/-!
# BrokenType `ttf-otf-windows-loader`: a shallow embedding

The loader (`ttf-otf-windows-loader.cpp`) drives GDI and Uniscribe over every
font, variation and glyph of a font file.  The embedding below follows the
source function by function:

* the Windows font subsystem is an arbitrary, history dependent environment
  (`Subsystem`): the answer to a call may depend on every call made before it;
* the program is explicit state passing over the chronological list of calls
  it issued;
* `config.h` is not part of the sources, so its constants are the fields of
  `Config`;
* logging (`DbgPrint`, `wprintf`) and the pure look-ups `GetSystemMetrics`,
  `GetProcessHeap`, `GetModuleHandleA`, `GetProcAddress` leave no entry in the
  list of calls;
* machine integers are natural numbers and integers.  The conversions that can
  lose information are explicit: the casts `(WCHAR)j` and `(WORD)j` are
  `j % 65536`, the `int` returned by `AddFontResourceW` becomes a `DWORD` by
  `% 4294967296`.  The loop counters stay below the bound of their type: `j`
  is below `wcLow + cGlyphs ≤ 131070`, the batch counter never exceeds
  `DISPLAYED_GLYPHS_COUNT`, an array bound;
* the loop `while (RemoveFontResourceW(szFontPath)) { }` need not end, so
  `GetLogfonts` and `wmain` take a bound on its iterations and return `none`
  when the bound is exhausted.
-/

namespace BrokenType

/-! ## Data model -/

/-- The constants of `config.h`. -/
structure Config where
  DISPLAYED_GLYPHS_COUNT : Nat
  FONT_VARIATION_COUNT : Nat
  HARNESS_TEST_KERNING_PAIRS : Bool
  HARNESS_TEST_GLYPH_OUTLINE : Bool
  HARNESS_TEST_DRAWTEXT : Bool
  HARNESS_TEST_UNISCRIBE : Bool

/-- The Win32 record `LOGFONTW`, field by field. -/
structure LOGFONTW where
  lfHeight : Int
  lfWidth : Int
  lfEscapement : Int
  lfOrientation : Int
  lfWeight : Int
  lfItalic : Nat
  lfUnderline : Nat
  lfStrikeOut : Nat
  lfCharSet : Nat
  lfOutPrecision : Nat
  lfClipPrecision : Nat
  lfQuality : Nat
  lfPitchAndFamily : Nat
  lfFaceName : List Nat
  deriving DecidableEq, Repr, Inhabited

/-- The Win32 record `WCRANGE`: `wcLow` is a `WCHAR`, `cGlyphs` a `USHORT`. -/
structure WCRANGE where
  wcLow : Nat
  cGlyphs : Nat
  deriving DecidableEq, Repr, Inhabited

/-- The range array of a `GLYPHSET`; `cRanges` is its length. -/
abbrev GLYPHSET := List WCRANGE

/-- The pointer variables of the program that hold a `HeapAlloc` block. -/
inductive Buf where
  | lpLogfonts
  | lpkrnpairs
  | lpGlyphset
  | lpvBuffer
  | wOutGlyphs
  | ScriptTags
  | LangTags
  | FeatureTags
  | AlternateGlyphs
  deriving DecidableEq, Repr

/-- One call into the font subsystem (or the process heap), with the arguments
that vary during a run. -/
inductive Call where
  | RemoveFontResourceW
  | AddFontResourceW
  | HeapAlloc (p : Buf)
  | HeapFree (p : Buf)
  | GetFontResourceInfoW
  | GetDC
  | SetGraphicsMode
  | ReleaseDC
  | CreateFontIndirectW (lf : LOGFONTW)
  | DeleteFont (hFont : Int)
  | SelectFont (hFont : Int)
  | GetKerningPairs (fill : Bool)
  | GetFontUnicodeRanges (fill : Bool)
  | GetGlyphOutline (glyph : Nat) (format : Nat) (fill : Bool)
  | DrawTextW (text : List Nat)
  | ScriptCacheGetHeight
  | ScriptGetFontProperties
  | ScriptGetGlyphABCWidth (glyph : Nat)
  | ScriptGetCMap (chars : List Nat) (cChars : Nat)
  | ScriptGetFontScriptTags
  | ScriptGetFontLanguageTags (script : Nat)
  | ScriptGetFontFeatureTags (script : Nat) (lang : Nat)
  | ScriptGetFontAlternateGlyphs (script : Nat) (lang : Nat) (feature : Nat) (glyph : Nat)
  | ScriptSubstituteSingleGlyph (script : Nat) (lang : Nat) (feature : Nat) (alt : Nat) (glyph : Nat)
  | ScriptFreeCache
  deriving DecidableEq, Repr

/-- What the environment hands back for one call: the return value, the `int`
out-parameter (`cScriptTags`, `cLangTags`, `cFeatureTags`, `cAlternates`), the
tag out-buffer, the range array of the `GLYPHSET` out-buffer, the `LOGFONTW`
out-buffer, and the bytes found in automatic storage declared right after the
call. -/
structure Response where
  ret : Int
  count : Int
  tags : Nat → Nat
  ranges : GLYPHSET
  logfonts : Nat → LOGFONTW
  stack : Nat → Nat

/-- The font subsystem: the response to the latest call of a history. -/
abbrev Subsystem := List Call → Response

/-! ## Loops -/

/-- Iterations of `for (j = ...; j < hi; j++) body`, from counter value `j`;
the first argument bounds the number of iterations. -/
def forLoopAux {σ : Type} (hi : Nat) (body : Nat → σ → σ) : Nat → Nat → σ → σ
  | 0, _, s => s
  | fuel + 1, j, s => if j < hi then forLoopAux hi body fuel (j + 1) (body j s) else s

/-- The loop `for (j = lo; j < hi; j++) body`; `hi - lo` iterations suffice. -/
def forLoop {σ : Type} (lo hi : Nat) (body : Nat → σ → σ) (s : σ) : σ :=
  forLoopAux hi body (hi - lo) lo s

/-- Iterations of `for (j = ...; success && j < hi; j++) body` where the body
either completes or sets `success = FALSE` and executes `break`. -/
def forLoopBreakAux {σ : Type} (hi : Nat) (body : Nat → σ → σ × Bool) :
    Nat → Nat → σ → σ × Bool
  | 0, _, s => (s, true)
  | fuel + 1, j, s =>
    if j < hi then
      match body j s with
      | (s1, true) => forLoopBreakAux hi body fuel (j + 1) s1
      | (s1, false) => (s1, false)
    else (s, true)

/-- The loop `for (j = lo; success && j < hi; j++) body`, entered with
`success == TRUE`; the flag returned is the final value of `success`. -/
def forLoopBreak {σ : Type} (lo hi : Nat) (body : Nat → σ → σ × Bool) (s : σ) : σ × Bool :=
  forLoopBreakAux hi body (hi - lo) lo s

/-- The loop nest shared by `TestUniscribe` (twice) and `wmain`:
`for (DWORD i = 0; i < cRanges; i++)
   for (LONG j = ranges[i].wcLow; j < ranges[i].wcLow + ranges[i].cGlyphs; j++) body`. -/
def glyphWalk {σ : Type} (lpGlyphset : GLYPHSET) (body : Nat → σ → σ) (s : σ) : σ :=
  forLoop 0 lpGlyphset.length
    (fun i s1 =>
      forLoop (lpGlyphset.getD i default).wcLow
        ((lpGlyphset.getD i default).wcLow + (lpGlyphset.getD i default).cGlyphs) body s1) s

/-! ## Variation generator (`wmain`, lines 225-240) -/

/-- The `LOGFONTW` handed to `CreateFontIndirectW` for `variation_it`, together
with the number of `rand()` draws consumed so far.  `rand` is the stream of
draws after `srand(0)`. -/
def variationConfig (rand : Nat → Nat) (d : LOGFONTW) (variation_it : Nat) (pos : Nat) :
    LOGFONTW × Nat :=
  if variation_it = 0 then (d, pos)
  else
    let lf := d
    let lf := { lf with lfHeight := ((rand pos % 80 : Nat) : Int) - 40 }
    let lf := { lf with lfWeight := ((rand (pos + 1) % 10 : Nat) : Int) * 100 }
    let lf := { lf with lfItalic := rand (pos + 2) &&& 1 }
    let lf := { lf with lfUnderline := rand (pos + 3) &&& 1 }
    let lf := { lf with lfStrikeOut := rand (pos + 4) &&& 1 }
    let lf := { lf with lfQuality := rand (pos + 5) % 6 }
    (lf, pos + 6)

/-! ## `GetLogfonts` -/

/-- The loop `while (RemoveFontResourceW(szFontPath)) { }`; `none` when the
iteration bound is used up before the subsystem reports nothing left. -/
def clearStale (o : Subsystem) : Nat → List Call → Option (List Call)
  | 0, _ => none
  | fuel + 1, t =>
    if (o (t ++ [Call.RemoveFontResourceW])).ret ≠ 0 then
      clearStale o fuel (t ++ [Call.RemoveFontResourceW])
    else some (t ++ [Call.RemoveFontResourceW])

/-- Result of `GetLogfonts`: the returned `BOOL`, the calls so far, and the
out-parameters `*lpdwFonts` and `*lpLogfonts`. -/
structure LogfontsResult where
  ok : Bool
  trace : List Call
  dwFonts : Nat
  lpLogfonts : Nat → LOGFONTW

/-- The function `GetLogfonts`. -/
def GetLogfonts (o : Subsystem) (fuel : Nat) (t : List Call) : Option LogfontsResult :=
  match clearStale o fuel t with
  | none => none
  | some t0 =>
    let t1 := t0 ++ [Call.AddFontResourceW]
    let dwFontsLoaded := ((o t1).ret % 4294967296).toNat
    if dwFontsLoaded = 0 then some ⟨false, t1, 0, fun _ => default⟩
    else
      let t2 := t1 ++ [Call.HeapAlloc Buf.lpLogfonts]
      if (o t2).ret = 0 then
        some ⟨false, t2 ++ [Call.RemoveFontResourceW], dwFontsLoaded, fun _ => default⟩
      else
        let t3 := t2 ++ [Call.GetFontResourceInfoW]
        if (o t3).ret = 0 then
          some ⟨false, t3 ++ [Call.HeapFree Buf.lpLogfonts, Call.RemoveFontResourceW],
            dwFontsLoaded, (o t3).logfonts⟩
        else
          some ⟨true, t3 ++ [Call.RemoveFontResourceW], dwFontsLoaded, (o t3).logfonts⟩

/-! ## `TestUniscribe` -/

/-- The assignment `buf[i] = v`. -/
def store (buf : Nat → Nat) (i v : Nat) : Nat → Nat :=
  fun k => if k = i then v else buf k

/-- The characters `buf[0], ..., buf[n-1]`: what a callee given `(buf, n)` reads. -/
def readBuffer (buf : Nat → Nat) (n : Nat) : List Nat :=
  (List.range n).map buf

/-- The string a callee given `(buf, -1)` reads from a buffer of `cap` cells:
the characters before the first `L'\0'`. -/
def cString (buf : Nat → Nat) (cap : Nat) : List Nat :=
  (readBuffer buf cap).takeWhile (fun c => c != 0)

/-- The local state of a batching loop: the calls so far, `szTextBuffer`,
`dwTextCount`, and (as a record of the execution) the index of every store
into `szTextBuffer`, in order. -/
structure BatchState where
  trace : List Call
  szTextBuffer : Nat → Nat
  dwTextCount : Nat
  stores : List Nat

/-- Body of the first glyph loop of `TestUniscribe` (lines 100-112), with
`C = DISPLAYED_GLYPHS_COUNT`. -/
def uniscribeGlyphStep (C : Nat) (j : Nat) (s : BatchState) : BatchState :=
  let buf := store s.szTextBuffer s.dwTextCount (j % 65536)
  let t1 := s.trace ++ [Call.ScriptGetGlyphABCWidth (j % 65536)]
  if C ≤ s.dwTextCount + 1 then
    ⟨t1 ++ [Call.ScriptGetCMap (readBuffer buf (s.dwTextCount + 1)) (s.dwTextCount + 1)],
      buf, 0, s.stores ++ [s.dwTextCount]⟩
  else
    ⟨t1, buf, s.dwTextCount + 1, s.stores ++ [s.dwTextCount]⟩

/-- Lines 83-119 of `TestUniscribe`: set-up, the batching loop, the last flush. -/
def uniscribeBatches (C : Nat) (o : Subsystem) (lpGlyphset : GLYPHSET) (t : List Call) :
    BatchState :=
  let t0 := t ++ [Call.ScriptCacheGetHeight, Call.ScriptGetFontProperties]
  let s0 : BatchState := ⟨t0 ++ [Call.HeapAlloc Buf.wOutGlyphs], (o t0).stack, 0, []⟩
  let s1 := glyphWalk lpGlyphset (uniscribeGlyphStep C) s0
  if 0 < s1.dwTextCount then
    ⟨s1.trace ++ [Call.ScriptGetCMap (readBuffer s1.szTextBuffer s1.dwTextCount) s1.dwTextCount],
      s1.szTextBuffer, s1.dwTextCount, s1.stores⟩
  else s1

/-- Lines 150-156: `for (int alt_glyph_id = 1; alt_glyph_id < cAlternates; alt_glyph_id++)`.
The counter starts at 1 and only grows, so it is a natural number and the test
against the `int` `cAlternates` is the test against `cAlternates.toNat`. -/
def substituteLoop (script lang feature glyph : Nat) (cAlternates : Int) (t : List Call) :
    List Call :=
  forLoop 1 cAlternates.toNat
    (fun alt_glyph_id t1 =>
      t1 ++ [Call.ScriptSubstituteSingleGlyph script lang feature alt_glyph_id glyph]) t

/-- Lines 146-157: the body of the innermost glyph loop. -/
def alternatesStep (o : Subsystem) (script lang feature : Nat) (j : Nat) (t : List Call) :
    List Call :=
  let t1 := t ++ [Call.ScriptGetFontAlternateGlyphs script lang feature (j % 65536)]
  if (o t1).ret = 0 then substituteLoop script lang feature (j % 65536) (o t1).count t1
  else t1

/-- Lines 140-160: the body of the feature loop. -/
def featureStep (o : Subsystem) (lpGlyphset : GLYPHSET) (script lang : Nat)
    (FeatureTags : Nat → Nat) (FeatureTag : Nat) (t : List Call) : List Call :=
  glyphWalk lpGlyphset (alternatesStep o script lang (FeatureTags FeatureTag)) t

/-- Lines 136-162: the body of the language loop. -/
def languageStep (o : Subsystem) (lpGlyphset : GLYPHSET) (script : Nat)
    (LangTags : Nat → Nat) (LangTag : Nat) (t : List Call) : List Call :=
  let t1 := t ++ [Call.ScriptGetFontFeatureTags script (LangTags LangTag)]
  if (o t1).ret = 0 then
    forLoop 0 (o t1).count.toNat (featureStep o lpGlyphset script (LangTags LangTag) (o t1).tags) t1
  else t1

/-- Lines 132-164: the body of the script loop. -/
def scriptStep (o : Subsystem) (lpGlyphset : GLYPHSET) (ScriptTags : Nat → Nat)
    (ScriptTag : Nat) (t : List Call) : List Call :=
  let t1 := t ++ [Call.ScriptGetFontLanguageTags (ScriptTags ScriptTag)]
  if (o t1).ret = 0 then
    forLoop 0 (o t1).count.toNat (languageStep o lpGlyphset (ScriptTags ScriptTag) (o t1).tags) t1
  else t1

/-- Lines 121-165: the script/language/feature/glyph/alternate enumeration. -/
def layoutSurface (o : Subsystem) (lpGlyphset : GLYPHSET) (t : List Call) : List Call :=
  let t1 := t ++ [Call.HeapAlloc Buf.ScriptTags, Call.HeapAlloc Buf.LangTags,
    Call.HeapAlloc Buf.FeatureTags, Call.HeapAlloc Buf.AlternateGlyphs]
  let t2 := t1 ++ [Call.ScriptGetFontScriptTags]
  if (o t2).ret = 0 then
    forLoop 0 (o t2).count.toNat (scriptStep o lpGlyphset (o t2).tags) t2
  else t2

/-- The function `TestUniscribe`. -/
def TestUniscribe (cfg : Config) (o : Subsystem) (lpGlyphset : GLYPHSET) (t : List Call) :
    List Call :=
  let s := uniscribeBatches cfg.DISPLAYED_GLYPHS_COUNT o lpGlyphset t
  layoutSurface o lpGlyphset s.trace ++
    [Call.ScriptFreeCache, Call.HeapFree Buf.wOutGlyphs, Call.HeapFree Buf.ScriptTags,
      Call.HeapFree Buf.LangTags, Call.HeapFree Buf.FeatureTags,
      Call.HeapFree Buf.AlternateGlyphs]

/-! ## `wmain` -/

/-- The array `glyph_formats`: `GGO_BEZIER, GGO_BITMAP, GGO_GRAY2_BITMAP,
GGO_GRAY4_BITMAP, GGO_GRAY8_BITMAP, GGO_NATIVE`. -/
def glyph_formats : List Nat := [3, 1, 4, 5, 6, 2]

/-- The value `GDI_ERROR`. -/
def GDI_ERROR : Int := 4294967295

/-- Lines 302-315: one outline format of one glyph. -/
def outlineStep (o : Subsystem) (j : Nat) (t : List Call) (format : Nat) : List Call :=
  let t1 := t ++ [Call.GetGlyphOutline j format false]
  if (o t1).ret ≠ GDI_ERROR then
    t1 ++ [Call.HeapAlloc Buf.lpvBuffer, Call.GetGlyphOutline j format true,
      Call.HeapFree Buf.lpvBuffer]
  else t1

/-- Lines 321-326: a glyph enters the string to be displayed, with
`C = DISPLAYED_GLYPHS_COUNT`; the buffer has `C + 1` cells. -/
def drawStep (C : Nat) (j : Nat) (s : BatchState) : BatchState :=
  let buf := store s.szTextBuffer s.dwTextCount (j % 65536)
  if C ≤ s.dwTextCount + 1 then
    ⟨s.trace ++ [Call.DrawTextW (cString (store buf C 0) (C + 1))], store buf C 0, 0,
      s.stores ++ [s.dwTextCount, C]⟩
  else
    ⟨s.trace, buf, s.dwTextCount + 1, s.stores ++ [s.dwTextCount]⟩

/-- Lines 298-327: the body of the glyph loop of `wmain`. -/
def wmainGlyphStep (cfg : Config) (o : Subsystem) (j : Nat) (s : BatchState) : BatchState :=
  let s1 : BatchState :=
    if cfg.HARNESS_TEST_GLYPH_OUTLINE then
      ⟨glyph_formats.foldl (outlineStep o j) s.trace, s.szTextBuffer, s.dwTextCount, s.stores⟩
    else s
  if cfg.HARNESS_TEST_DRAWTEXT then drawStep cfg.DISPLAYED_GLYPHS_COUNT j s1 else s1

/-- Lines 289-336: the glyph loop of `wmain` and the last drawing call. -/
def wmainGlyphs (cfg : Config) (o : Subsystem) (lpGlyphset : GLYPHSET) (t : List Call) :
    BatchState :=
  let s0 : BatchState := ⟨t, (o t).stack, 0, []⟩
  let s1 := glyphWalk lpGlyphset (wmainGlyphStep cfg o) s0
  if cfg.HARNESS_TEST_DRAWTEXT && decide (0 < s1.dwTextCount) then
    ⟨s1.trace ++
        [Call.DrawTextW (cString (store s1.szTextBuffer s1.dwTextCount 0)
          (cfg.DISPLAYED_GLYPHS_COUNT + 1))],
      store s1.szTextBuffer s1.dwTextCount 0, s1.dwTextCount, s1.stores ++ [s1.dwTextCount]⟩
  else s1

/-- Lines 253-265: the kerning pairs. -/
def kerningPairs (o : Subsystem) (t : List Call) : List Call :=
  let t1 := t ++ [Call.GetKerningPairs false]
  if (o t1).ret ≠ 0 then
    t1 ++ [Call.HeapAlloc Buf.lpkrnpairs, Call.GetKerningPairs true, Call.HeapFree Buf.lpkrnpairs]
  else t1

/-- The state threaded through the font and variation loops: the calls so far
and the number of `rand()` draws consumed. -/
structure RunState where
  trace : List Call
  pos : Nat

/-- Lines 222-346: the body of the variation loop.  The flag is `false` when the
body has set `success = FALSE` and left the loop with `break`. -/
def variationStep (cfg : Config) (o : Subsystem) (rand : Nat → Nat)
    (lpLogfonts : Nat → LOGFONTW) (font_it variation_it : Nat) (s : RunState) :
    RunState × Bool :=
  let lf := (variationConfig rand (lpLogfonts font_it) variation_it s.pos).1
  let pos := (variationConfig rand (lpLogfonts font_it) variation_it s.pos).2
  let t1 := s.trace ++ [Call.CreateFontIndirectW lf]
  let hFont := (o t1).ret
  if hFont = 0 then (⟨t1 ++ [Call.DeleteFont hFont], pos⟩, false)
  else
    let t2 := t1 ++ [Call.SelectFont hFont]
    let t3 := if cfg.HARNESS_TEST_KERNING_PAIRS then kerningPairs o t2 else t2
    let t4 := t3 ++ [Call.GetFontUnicodeRanges false]
    if (o t4).ret = 0 then (⟨t4 ++ [Call.DeleteFont hFont], pos⟩, false)
    else
      let t5 := t4 ++ [Call.HeapAlloc Buf.lpGlyphset, Call.GetFontUnicodeRanges true]
      if (o t5).ret = 0 then
        (⟨t5 ++ [Call.HeapFree Buf.lpGlyphset, Call.DeleteFont hFont], pos⟩, false)
      else
        let lpGlyphset := (o t5).ranges
        let t6 := (wmainGlyphs cfg o lpGlyphset t5).trace
        let t7 := if cfg.HARNESS_TEST_UNISCRIBE then TestUniscribe cfg o lpGlyphset t6 else t6
        (⟨t7 ++ [Call.HeapFree Buf.lpGlyphset, Call.DeleteFont hFont], pos⟩, true)

/-- Lines 218-348: the font loop with the variation loop inside. -/
def fontLoops (cfg : Config) (o : Subsystem) (rand : Nat → Nat)
    (lpLogfonts : Nat → LOGFONTW) (dwFonts : Nat) (s : RunState) : RunState × Bool :=
  forLoopBreak 0 dwFonts
    (fun font_it s1 =>
      forLoopBreak 0 cfg.FONT_VARIATION_COUNT
        (variationStep cfg o rand lpLogfonts font_it) s1) s

/-- What a run leaves behind: the exit code and the calls it made. -/
structure Outcome where
  exitCode : Int
  trace : List Call

/-- The value `EXIT_FAILURE`. -/
def EXIT_FAILURE : Int := 1

/-- The function `wmain`; `fuel` bounds the iterations of the loop that clears
stale registrations, and the result is `none` when that bound is exhausted. -/
def wmain (cfg : Config) (o : Subsystem) (rand : Nat → Nat) (argc : Int) (fuel : Nat) :
    Option Outcome :=
  if argc ≠ 2 then some ⟨EXIT_FAILURE, []⟩
  else
    match GetLogfonts o fuel [] with
    | none => none
    | some r =>
      if r.ok then
        let t1 := r.trace ++ [Call.AddFontResourceW]
        if 0 < (o t1).ret then
          let t2 := t1 ++ [Call.GetDC, Call.SetGraphicsMode]
          let s := (fontLoops cfg o rand r.lpLogfonts r.dwFonts ⟨t2, 0⟩).1
          some ⟨0, s.trace ++ [Call.ReleaseDC, Call.RemoveFontResourceW]⟩
        else some ⟨0, t1⟩
      else some ⟨0, r.trace⟩

/-! ## Specification vocabulary -/

/-- The code points of a coverage set: every code point of every range
`[wcLow, wcLow + cGlyphs)`, ranges in order, values ascending. -/
def coveragePoints (g : GLYPHSET) : List Nat :=
  g.flatMap (fun r => List.range' r.wcLow r.cGlyphs)

/-- The component of the program that issues a call. -/
inductive Origin where
  | registration
  | context
  | font
  | kerning
  | coverage
  | outline
  | drawing
  | uniscribe
  | shaping
  deriving DecidableEq, Repr

/-- Which component issues which call (the `HeapAlloc`/`HeapFree` calls by the
pointer variable they serve). -/
def origin : Call → Origin
  | Call.RemoveFontResourceW => Origin.registration
  | Call.AddFontResourceW => Origin.registration
  | Call.GetFontResourceInfoW => Origin.registration
  | Call.HeapAlloc Buf.lpLogfonts => Origin.registration
  | Call.HeapFree Buf.lpLogfonts => Origin.registration
  | Call.GetDC => Origin.context
  | Call.SetGraphicsMode => Origin.context
  | Call.ReleaseDC => Origin.context
  | Call.CreateFontIndirectW _ => Origin.font
  | Call.DeleteFont _ => Origin.font
  | Call.SelectFont _ => Origin.font
  | Call.GetKerningPairs _ => Origin.kerning
  | Call.HeapAlloc Buf.lpkrnpairs => Origin.kerning
  | Call.HeapFree Buf.lpkrnpairs => Origin.kerning
  | Call.GetFontUnicodeRanges _ => Origin.coverage
  | Call.HeapAlloc Buf.lpGlyphset => Origin.coverage
  | Call.HeapFree Buf.lpGlyphset => Origin.coverage
  | Call.GetGlyphOutline _ _ _ => Origin.outline
  | Call.DrawTextW _ => Origin.drawing
  | Call.HeapAlloc Buf.lpvBuffer => Origin.outline
  | Call.HeapFree Buf.lpvBuffer => Origin.outline
  | Call.ScriptCacheGetHeight => Origin.uniscribe
  | Call.ScriptGetFontProperties => Origin.uniscribe
  | Call.ScriptGetGlyphABCWidth _ => Origin.uniscribe
  | Call.ScriptGetCMap _ _ => Origin.uniscribe
  | Call.ScriptFreeCache => Origin.uniscribe
  | Call.HeapAlloc Buf.wOutGlyphs => Origin.uniscribe
  | Call.HeapFree Buf.wOutGlyphs => Origin.uniscribe
  | _ => Origin.shaping

/-- The trace `t1` continues `t` by calls that all satisfy `P`. -/
def Extends (P : Call → Prop) (t t1 : List Call) : Prop :=
  ∃ suf, t1 = t ++ suf ∧ ∀ c ∈ suf, P c

/-- The character runs handed to `ScriptGetCMap`, in order. -/
def cmapRuns (t : List Call) : List (List Nat) :=
  t.filterMap (fun c => match c with
    | Call.ScriptGetCMap chars _ => some chars
    | _ => none)

/-- The strings handed to `DrawTextW`, in order. -/
def drawRuns (t : List Call) : List (List Nat) :=
  t.filterMap (fun c => match c with
    | Call.DrawTextW text => some text
    | _ => none)

/-- The glyph arguments of the `ScriptGetGlyphABCWidth` calls, in order. -/
def metricsQueries (t : List Call) : List Nat :=
  t.filterMap (fun c => match c with
    | Call.ScriptGetGlyphABCWidth glyph => some glyph
    | _ => none)

/-- The glyph arguments of the size queries `GetGlyphOutline(.., format, .., 0, NULL, ..)`
for one format, in order. -/
def outlineQueries (format : Nat) (t : List Call) : List Nat :=
  t.filterMap (fun c => match c with
    | Call.GetGlyphOutline glyph f false => if f = format then some glyph else none
    | _ => none)

/-- A call is one of `TestUniscribe`. -/
def isUniscribeCall (c : Call) : Prop :=
  origin c = Origin.uniscribe ∨ origin c = Origin.shaping

/-- A call is one of the glyph loop of `wmain`. -/
def isGlyphLoopCall (c : Call) : Prop :=
  origin c = Origin.outline ∨ origin c = Origin.drawing

/-- A `ScriptGetCMap` call passes a count between 1 and `C` (and as many
characters); every other call is unconstrained. -/
def cmapCountOK (C : Nat) : Call → Prop
  | Call.ScriptGetCMap chars cChars => 1 ≤ cChars ∧ cChars ≤ C ∧ chars.length = cChars
  | _ => True

/-- The property of a drawing batch that the walk maintains: the counter is
below the capacity and no character waiting in the buffer is `L'\0'`. -/
def DrawInv (C : Nat) (s : BatchState) : Prop :=
  s.dwTextCount < C ∧ ∀ i, i < s.dwTextCount → s.szTextBuffer i ≠ 0

/-- The history at which the script enumeration of `TestUniscribe` is answered:
the four tag buffers are allocated, then `ScriptGetFontScriptTags` is called. -/
def scriptEnumeration (t : List Call) : List Call :=
  t ++ [Call.HeapAlloc Buf.ScriptTags, Call.HeapAlloc Buf.LangTags,
    Call.HeapAlloc Buf.FeatureTags, Call.HeapAlloc Buf.AlternateGlyphs] ++
    [Call.ScriptGetFontScriptTags]

/-! ### Concrete inputs -/

/-- A subsystem whose every answer is zero: every Win32 call that reports
failure by `0`/`NULL` fails, every `HRESULT` is `S_OK`, every out-parameter is
empty. -/
def zeroSubsystem : Subsystem :=
  fun _ => ⟨0, 0, fun _ => 0, [], fun _ => default, fun _ => 0⟩

/-- A configuration with every test enabled, batches of 4 glyphs, 2 variations. -/
def fullConfig : Config := ⟨4, 2, true, true, true, true⟩

/-- A coverage set whose single range `[65535, 65537)` runs past the last
16-bit character. -/
def wrappingCoverage : GLYPHSET := [⟨65535, 2⟩]

/-- A coverage set whose single range `[0, 2)` starts at U+0000. -/
def nulCoverage : GLYPHSET := [⟨0, 2⟩]

/-- A coverage set of two ranges, `[65, 71)` and `[97, 100)`. -/
def latinCoverage : GLYPHSET := [⟨65, 6⟩, ⟨97, 3⟩]

/-- The script arguments of the `ScriptGetFontLanguageTags` calls, in order. -/
def languageQueries (t : List Call) : List Nat :=
  t.filterMap (fun c => match c with
    | Call.ScriptGetFontLanguageTags script => some script
    | _ => none)

/-- The (script, language) arguments of the `ScriptGetFontFeatureTags` calls,
in order. -/
def featureQueries (t : List Call) : List (Nat × Nat) :=
  t.filterMap (fun c => match c with
    | Call.ScriptGetFontFeatureTags script lang => some (script, lang)
    | _ => none)

/-- The (script, language, feature, glyph) arguments of the
`ScriptGetFontAlternateGlyphs` calls, in order. -/
def alternateQueries (t : List Call) : List (Nat × Nat × Nat × Nat) :=
  t.filterMap (fun c => match c with
    | Call.ScriptGetFontAlternateGlyphs script lang feature glyph =>
      some (script, lang, feature, glyph)
    | _ => none)

/-- A call issued beneath a feature tag: an alternate-glyph query or a
substitution. -/
def belowFeature : Call → Prop
  | Call.ScriptGetFontAlternateGlyphs _ _ _ _ => True
  | Call.ScriptSubstituteSingleGlyph _ _ _ _ _ => True
  | _ => False

/-- A call issued beneath a language tag: a feature-tag query, an
alternate-glyph query or a substitution. -/
def belowLanguage : Call → Prop
  | Call.ScriptGetFontFeatureTags _ _ => True
  | Call.ScriptGetFontAlternateGlyphs _ _ _ _ => True
  | Call.ScriptSubstituteSingleGlyph _ _ _ _ _ => True
  | _ => False

/-- The substitutions that follow an alternate-glyph query answered by `r`:
none when the query failed, else one for each alternate index
`1, ..., cAlternates - 1`. -/
def substitutionsFor (r : Response) (script lang feature glyph : Nat) : List Call :=
  if r.ret = 0 then
    (List.range' 1 (r.count.toNat - 1)).map
      (fun a => Call.ScriptSubstituteSingleGlyph script lang feature a glyph)
  else []

/-- The `HRESULT` `E_FAIL`. -/
def E_FAIL : Int := -2147467259

/-- A subsystem for the layout surface: three scripts 100, 101, 102; the
language enumeration fails for script 101 and reports the languages 200, 201
otherwise; every (script, language) has the single feature 300; every glyph
has three alternates; every other call returns 1. -/
def shapingSubsystem : Subsystem := fun t =>
  match t.getLast? with
  | some Call.ScriptGetFontScriptTags =>
    ⟨0, 3, fun i => 100 + i, [], fun _ => default, fun _ => 0⟩
  | some (Call.ScriptGetFontLanguageTags script) =>
    ⟨if script = 101 then E_FAIL else 0, 2, fun i => 200 + i, [], fun _ => default, fun _ => 0⟩
  | some (Call.ScriptGetFontFeatureTags _ _) =>
    ⟨0, 1, fun i => 300 + i, [], fun _ => default, fun _ => 0⟩
  | some (Call.ScriptGetFontAlternateGlyphs _ _ _ _) =>
    ⟨0, 3, fun _ => 0, [], fun _ => default, fun _ => 0⟩
  | some (Call.ScriptSubstituteSingleGlyph _ _ _ _ _) =>
    ⟨0, 0, fun _ => 0, [], fun _ => default, fun _ => 0⟩
  | _ => ⟨1, 0, fun _ => 0, [], fun _ => default, fun _ => 0⟩

/-- The subsystem `shapingSubsystem`, except that every substitution fails. -/
def failingSubstitution : Subsystem := fun t =>
  match t.getLast? with
  | some (Call.ScriptSubstituteSingleGlyph _ _ _ _ _) =>
    ⟨E_FAIL, 0, fun _ => 0, [], fun _ => default, fun _ => 0⟩
  | _ => shapingSubsystem t

/-- A coverage set of one range, `[65, 67)`. -/
def smallCoverage : GLYPHSET := [⟨65, 2⟩]

/-! ### Vocabulary for whole runs -/

/-- The number of iterations that reached the coverage-enumeration stage: the
number of size queries `GetFontUnicodeRanges(hDC, NULL)`. -/
def coverageAttempts (t : List Call) : Nat :=
  t.count (Call.GetFontUnicodeRanges false)

/-- The calls whose failure ends an iteration: the font creation and the two
coverage queries. -/
def isStageQuery : Call → Prop
  | Call.CreateFontIndirectW _ => True
  | Call.GetFontUnicodeRanges _ => True
  | _ => False

/-- The calls that release what an iteration or the run holds. -/
def isCleanup : Call → Prop
  | Call.HeapFree Buf.lpGlyphset => True
  | Call.DeleteFont _ => True
  | Call.ReleaseDC => True
  | Call.RemoveFontResourceW => True
  | _ => False

/-- Read after the history `h`, no font creation and no coverage query among
the calls `suf` is answered by failure. -/
def noStageFailure (o : Subsystem) : List Call → List Call → Prop
  | _, [] => True
  | h, c :: rest => (isStageQuery c → (o (h ++ [c])).ret ≠ 0) ∧ noStageFailure o (h ++ [c]) rest

/-- Read after the history `h`, the first font creation or coverage query
among the calls `suf` that is answered by failure is followed by releases
only. -/
def stopsAtFailure (o : Subsystem) : List Call → List Call → Prop
  | _, [] => True
  | h, c :: rest =>
    (isStageQuery c → (o (h ++ [c])).ret = 0 → ∀ x ∈ rest, isCleanup x) ∧
      ((isStageQuery c → (o (h ++ [c])).ret ≠ 0) → stopsAtFailure o (h ++ [c]) rest)

/-- The calls of the optional tests that a configuration compiles in. -/
def optional (cfg : Config) (c : Call) : Prop :=
  (cfg.HARNESS_TEST_KERNING_PAIRS = true ∧ origin c = Origin.kerning) ∨
    (cfg.HARNESS_TEST_GLYPH_OUTLINE = true ∧ origin c = Origin.outline) ∨
    (cfg.HARNESS_TEST_DRAWTEXT = true ∧ origin c = Origin.drawing) ∨
    (cfg.HARNESS_TEST_UNISCRIBE = true ∧ isUniscribeCall c)

/-- The calls an iteration of the variation loop can issue under a
configuration: font and coverage calls always, the others when compiled in. -/
def enabled (cfg : Config) (c : Call) : Prop :=
  origin c = Origin.font ∨ origin c = Origin.coverage ∨ optional cfg c

/-- What a stretch `suf` of a run, read after the history `h` and ending with
the flag `success = ok`, satisfies: a failed font creation or coverage query is
followed by releases only, there is no such failure at all when `ok` holds, and
every call is one the configuration compiles in. -/
def Segment (cfg : Config) (o : Subsystem) (h suf : List Call) (ok : Bool) : Prop :=
  stopsAtFailure o h suf ∧ (ok = true → noStageFailure o h suf) ∧ ∀ c ∈ suf, enabled cfg c

/-- The calls a run can issue under a configuration. -/
def runCall (cfg : Config) (c : Call) : Prop :=
  origin c = Origin.registration ∨ origin c = Origin.context ∨ enabled cfg c

/-- A configuration with every optional test compiled out, batches of 4
glyphs, 2 variations. -/
def bareConfig : Config := ⟨4, 2, false, false, false, false⟩

/-- A well-behaved subsystem for a font file with one descriptor whose coverage
is the single range `[65, 66)`: nothing stale to remove, one font registered,
every font created, a coverage buffer of one range. -/
def scenarioSubsystem : Subsystem := fun t =>
  match t.getLast? with
  | some Call.RemoveFontResourceW => ⟨0, 0, fun _ => 0, [], fun _ => default, fun _ => 0⟩
  | some (Call.GetFontUnicodeRanges false) =>
    ⟨20, 0, fun _ => 0, [], fun _ => default, fun _ => 0⟩
  | some (Call.GetFontUnicodeRanges true) =>
    ⟨20, 0, fun _ => 0, [⟨65, 1⟩], fun _ => default, fun _ => 0⟩
  | _ => ⟨1, 0, fun _ => 0, [], fun _ => default, fun _ => 0⟩

/-- A subsystem for a font file with two descriptors for which the coverage
size query reports zero. -/
def noCoverageSubsystem : Subsystem := fun t =>
  match t.getLast? with
  | some Call.RemoveFontResourceW => ⟨0, 0, fun _ => 0, [], fun _ => default, fun _ => 0⟩
  | some Call.AddFontResourceW => ⟨2, 0, fun _ => 0, [], fun _ => default, fun _ => 0⟩
  | some (Call.GetFontUnicodeRanges _) => ⟨0, 0, fun _ => 0, [], fun _ => default, fun _ => 0⟩
  | _ => ⟨1, 0, fun _ => 0, [], fun _ => default, fun _ => 0⟩

/-- A subsystem for a font file with one descriptor for which no font can be
created. -/
def noFontSubsystem : Subsystem := fun t =>
  match t.getLast? with
  | some Call.RemoveFontResourceW => ⟨0, 0, fun _ => 0, [], fun _ => default, fun _ => 0⟩
  | some (Call.CreateFontIndirectW _) => ⟨0, 0, fun _ => 0, [], fun _ => default, fun _ => 0⟩
  | _ => ⟨1, 0, fun _ => 0, [], fun _ => default, fun _ => 0⟩

/-- A stream of `rand()` draws: the draw number `n` is `n`. -/
def countingDraws : Nat → Nat := fun n => n

/-! ### The layout enumeration as nested blocks (spec 4.6) -/

/-- The history `finish` is reached from `start` in `n` consecutive blocks:
there are intermediate histories `T 0 = start, T 1, ..., T n = finish` and
block `k` leads from `T k` to `T (k + 1)` as `P k` prescribes. -/
def Blocks (n : Nat) (start finish : List Call)
    (P : Nat → List Call → List Call → Prop) : Prop :=
  ∃ T : Nat → List Call, T 0 = start ∧ T n = finish ∧ ∀ k, k < n → P k (T k) (T (k + 1))

/-- Step 4 and 5 of the enumeration for one glyph under a tag triple: the
alternate-glyph query, then the substitutions its answer calls for. -/
def glyphBlock (o : Subsystem) (script lang feature glyph : Nat) (h h1 : List Call) : Prop :=
  h1 = h ++ Call.ScriptGetFontAlternateGlyphs script lang feature glyph ::
    substitutionsFor (o (h ++ [Call.ScriptGetFontAlternateGlyphs script lang feature glyph]))
      script lang feature glyph

/-- Step 4 for one tag triple: one glyph block per covered code point, in
order, the code point passed as a 16-bit glyph. -/
def featureBlock (o : Subsystem) (g : GLYPHSET) (script lang feature : Nat)
    (h h1 : List Call) : Prop :=
  Blocks (coveragePoints g).length h h1
    (fun k u u1 => glyphBlock o script lang feature ((coveragePoints g).getD k 0 % 65536) u u1)

/-- Step 3 for one (script, language): the feature-tag query; if it fails
nothing more, else one feature block per feature tag returned, in order. -/
def languageBlock (o : Subsystem) (g : GLYPHSET) (script lang : Nat) (h h1 : List Call) : Prop :=
  ((o (h ++ [Call.ScriptGetFontFeatureTags script lang])).ret ≠ 0 →
      h1 = h ++ [Call.ScriptGetFontFeatureTags script lang]) ∧
    ((o (h ++ [Call.ScriptGetFontFeatureTags script lang])).ret = 0 →
      Blocks (o (h ++ [Call.ScriptGetFontFeatureTags script lang])).count.toNat
        (h ++ [Call.ScriptGetFontFeatureTags script lang]) h1
        (fun f u u1 => featureBlock o g script lang
          ((o (h ++ [Call.ScriptGetFontFeatureTags script lang])).tags f) u u1))

/-- Step 2 for one script: the language-tag query; if it fails nothing more,
else one language block per language tag returned, in order. -/
def scriptBlock (o : Subsystem) (g : GLYPHSET) (script : Nat) (h h1 : List Call) : Prop :=
  ((o (h ++ [Call.ScriptGetFontLanguageTags script])).ret ≠ 0 →
      h1 = h ++ [Call.ScriptGetFontLanguageTags script]) ∧
    ((o (h ++ [Call.ScriptGetFontLanguageTags script])).ret = 0 →
      Blocks (o (h ++ [Call.ScriptGetFontLanguageTags script])).count.toNat
        (h ++ [Call.ScriptGetFontLanguageTags script]) h1
        (fun i u u1 => languageBlock o g script
          ((o (h ++ [Call.ScriptGetFontLanguageTags script])).tags i) u u1))

/-! ## Loops as folds -/

theorem forLoopAux_eq_foldl {σ : Type} (hi : Nat) (body : Nat → σ → σ) :
    ∀ (fuel j : Nat) (s : σ), hi - j ≤ fuel →
      forLoopAux hi body fuel j s = (List.range' j (hi - j)).foldl (fun s1 k => body k s1) s := by
  intro fuel
  induction fuel with
  | zero =>
    intro j s h
    have h0 : hi - j = 0 := by omega
    simp [forLoopAux, h0]
  | succ n ih =>
    intro j s h
    unfold forLoopAux
    by_cases hj : j < hi
    · have e : hi - j = (hi - (j + 1)) + 1 := by omega
      rw [if_pos hj, ih (j + 1) (body j s) (by omega), e, List.range'_succ]
      rfl
    · have h0 : hi - j = 0 := by omega
      simp [hj, h0]

theorem forLoop_eq_foldl {σ : Type} (lo hi : Nat) (body : Nat → σ → σ) (s : σ) :
    forLoop lo hi body s = (List.range' lo (hi - lo)).foldl (fun s1 k => body k s1) s :=
  forLoopAux_eq_foldl hi body (hi - lo) lo s (le_refl _)

theorem foldl_index_getD {σ : Type} (F : WCRANGE → σ → σ) :
    ∀ (g : GLYPHSET) (s : σ),
      (List.range' 0 g.length).foldl (fun s1 i => F (g.getD i default) s1) s
        = g.foldl (fun s1 r => F r s1) s := by
  intro g
  induction g using List.reverseRecOn with
  | nil => intro s; rfl
  | append_singleton l a ih =>
    intro s
    have hlen : (l ++ [a]).length = l.length + 1 := by simp
    rw [hlen, List.range'_concat, List.foldl_append, List.foldl_append]
    have h1 : (List.range' 0 l.length).foldl (fun s1 i => F ((l ++ [a]).getD i default) s1) s
        = (List.range' 0 l.length).foldl (fun s1 i => F (l.getD i default) s1) s := by
      apply List.foldl_ext
      intro s1 i hi
      have hi2 : i < l.length := by
        have := List.mem_range'.1 hi
        omega
      simp [List.getD_eq_getElem?_getD, List.getElem?_append_left hi2]
    rw [h1, ih]
    simp [List.getD_eq_getElem?_getD]

theorem glyphWalk_eq_foldl {σ : Type} (g : GLYPHSET) (body : Nat → σ → σ) (s : σ) :
    glyphWalk g body s = (coveragePoints g).foldl (fun s1 j => body j s1) s := by
  unfold glyphWalk
  rw [forLoop_eq_foldl]
  simp only [forLoop_eq_foldl, Nat.add_sub_cancel_left, Nat.sub_zero]
  rw [foldl_index_getD (fun r s1 => (List.range' r.wcLow r.cGlyphs).foldl (fun s2 k => body k s2) s1)]
  unfold coveragePoints
  induction g generalizing s with
  | nil => rfl
  | cons r rs ih => simp [List.flatMap_cons, List.foldl_append, ih]

/-! ## Traces that only grow -/

theorem Extends.refl (P : Call → Prop) (t : List Call) : Extends P t t :=
  ⟨[], by simp, by simp⟩

theorem Extends.trans {P : Call → Prop} {t t1 t2 : List Call}
    (h1 : Extends P t t1) (h2 : Extends P t1 t2) : Extends P t t2 := by
  obtain ⟨a, rfl, ha⟩ := h1
  obtain ⟨b, rfl, hb⟩ := h2
  refine ⟨a ++ b, by simp, ?_⟩
  intro c hc
  rcases List.mem_append.1 hc with h | h
  · exact ha c h
  · exact hb c h

theorem Extends.append {P : Call → Prop} (t l : List Call) (h : ∀ c ∈ l, P c) :
    Extends P t (t ++ l) :=
  ⟨l, rfl, h⟩

theorem Extends.mono {P Q : Call → Prop} {t t1 : List Call} (hPQ : ∀ c, P c → Q c)
    (h : Extends P t t1) : Extends Q t t1 := by
  obtain ⟨a, rfl, ha⟩ := h
  exact ⟨a, rfl, fun c hc => hPQ c (ha c hc)⟩

theorem foldl_extends {σ α : Type} (proj : σ → List Call) (P : Call → Prop) (f : σ → α → σ)
    (h : ∀ s a, Extends P (proj s) (proj (f s a))) :
    ∀ (l : List α) (s : σ), Extends P (proj s) (proj (l.foldl f s)) := by
  intro l
  induction l with
  | nil => intro s; exact Extends.refl P _
  | cons a l ih => intro s; exact (h s a).trans (ih (f s a))

theorem forLoop_extends {σ : Type} (proj : σ → List Call) (P : Call → Prop)
    (body : Nat → σ → σ) (h : ∀ j s, Extends P (proj s) (proj (body j s)))
    (lo hi : Nat) (s : σ) : Extends P (proj s) (proj (forLoop lo hi body s)) := by
  rw [forLoop_eq_foldl]
  exact foldl_extends proj P (fun s1 k => body k s1) (fun s a => h a s) _ s

theorem glyphWalk_extends {σ : Type} (proj : σ → List Call) (P : Call → Prop)
    (body : Nat → σ → σ) (h : ∀ j s, Extends P (proj s) (proj (body j s)))
    (g : GLYPHSET) (s : σ) : Extends P (proj s) (proj (glyphWalk g body s)) := by
  rw [glyphWalk_eq_foldl]
  exact foldl_extends proj P (fun s1 k => body k s1) (fun s a => h a s) _ s

theorem Extends.filterMap_eq {β : Type} {P : Call → Prop} (f : Call → Option β)
    (hf : ∀ c, P c → f c = none) {t t1 : List Call} (h : Extends P t t1) :
    t1.filterMap f = t.filterMap f := by
  obtain ⟨a, rfl, ha⟩ := h
  rw [List.filterMap_append]
  have : a.filterMap f = [] := by
    rw [List.filterMap_eq_nil_iff]
    intro c hc
    exact hf c (ha c hc)
  simp [this]

theorem Extends.count_eq {P : Call → Prop} (x : Call)
    (hx : ∀ c, P c → c ≠ x) {t t1 : List Call} (h : Extends P t t1) :
    t1.count x = t.count x := by
  obtain ⟨a, rfl, ha⟩ := h
  rw [List.count_append]
  have : a.count x = 0 := by
    rw [List.count_eq_zero]
    intro hmem
    exact hx x (ha x hmem) rfl
  omega

/-! ### The calls of each component -/

theorem substituteLoop_extends (script lang feature glyph : Nat) (n : Int) (t : List Call) :
    Extends (fun c => origin c = Origin.shaping) t
      (substituteLoop script lang feature glyph n t) := by
  unfold substituteLoop
  apply forLoop_extends (fun t => t)
  intro j s
  exact Extends.append _ _ (by simp [origin])

theorem alternatesStep_extends (o : Subsystem) (script lang feature j : Nat) (t : List Call) :
    Extends (fun c => origin c = Origin.shaping) t (alternatesStep o script lang feature j t) := by
  unfold alternatesStep
  have h1 : Extends (fun c => origin c = Origin.shaping) t
      (t ++ [Call.ScriptGetFontAlternateGlyphs script lang feature (j % 65536)]) :=
    Extends.append _ _ (by simp [origin])
  dsimp only
  split
  · exact h1.trans (substituteLoop_extends _ _ _ _ _ _)
  · exact h1

theorem featureStep_extends (o : Subsystem) (g : GLYPHSET) (script lang : Nat)
    (FeatureTags : Nat → Nat) (FeatureTag : Nat) (t : List Call) :
    Extends (fun c => origin c = Origin.shaping) t
      (featureStep o g script lang FeatureTags FeatureTag t) := by
  unfold featureStep
  exact glyphWalk_extends (fun t => t) _ _ (fun j s => alternatesStep_extends o _ _ _ j s) g t

theorem languageStep_extends (o : Subsystem) (g : GLYPHSET) (script : Nat)
    (LangTags : Nat → Nat) (LangTag : Nat) (t : List Call) :
    Extends (fun c => origin c = Origin.shaping) t
      (languageStep o g script LangTags LangTag t) := by
  unfold languageStep
  have h1 : Extends (fun c => origin c = Origin.shaping) t
      (t ++ [Call.ScriptGetFontFeatureTags script (LangTags LangTag)]) :=
    Extends.append _ _ (by simp [origin])
  dsimp only
  split
  · exact h1.trans (forLoop_extends (fun t => t) _ _
      (fun j s => featureStep_extends o g _ _ _ j s) _ _ _)
  · exact h1

theorem scriptStep_extends (o : Subsystem) (g : GLYPHSET) (ScriptTags : Nat → Nat)
    (ScriptTag : Nat) (t : List Call) :
    Extends (fun c => origin c = Origin.shaping) t (scriptStep o g ScriptTags ScriptTag t) := by
  unfold scriptStep
  have h1 : Extends (fun c => origin c = Origin.shaping) t
      (t ++ [Call.ScriptGetFontLanguageTags (ScriptTags ScriptTag)]) :=
    Extends.append _ _ (by simp [origin])
  dsimp only
  split
  · exact h1.trans (forLoop_extends (fun t => t) _ _
      (fun j s => languageStep_extends o g _ _ j s) _ _ _)
  · exact h1

theorem layoutSurface_extends (o : Subsystem) (g : GLYPHSET) (t : List Call) :
    Extends (fun c => origin c = Origin.shaping) t (layoutSurface o g t) := by
  unfold layoutSurface
  have h1 : Extends (fun c => origin c = Origin.shaping) t
      (t ++ [Call.HeapAlloc Buf.ScriptTags, Call.HeapAlloc Buf.LangTags,
        Call.HeapAlloc Buf.FeatureTags, Call.HeapAlloc Buf.AlternateGlyphs] ++
        [Call.ScriptGetFontScriptTags]) :=
    (Extends.append _ _ (by simp [origin])).trans (Extends.append _ _ (by simp [origin]))
  dsimp only
  split
  · exact h1.trans (forLoop_extends (fun t => t) _ _
      (fun j s => scriptStep_extends o g _ j s) _ _ _)
  · exact h1

theorem uniscribeGlyphStep_extends (C j : Nat) (s : BatchState) :
    Extends (fun c => origin c = Origin.uniscribe) s.trace (uniscribeGlyphStep C j s).trace := by
  unfold uniscribeGlyphStep
  dsimp only
  split
  · exact (Extends.append _ _ (by simp [origin])).trans (Extends.append _ _ (by simp [origin]))
  · exact Extends.append _ _ (by simp [origin])

theorem uniscribeBatches_extends (C : Nat) (o : Subsystem) (g : GLYPHSET) (t : List Call) :
    Extends (fun c => origin c = Origin.uniscribe) t (uniscribeBatches C o g t).trace := by
  unfold uniscribeBatches
  have h0 : Extends (fun c => origin c = Origin.uniscribe) t
      (t ++ [Call.ScriptCacheGetHeight, Call.ScriptGetFontProperties] ++
        [Call.HeapAlloc Buf.wOutGlyphs]) :=
    (Extends.append _ _ (by simp [origin])).trans (Extends.append _ _ (by simp [origin]))
  have h1 := glyphWalk_extends (fun s : BatchState => s.trace) _ _
    (fun j s => uniscribeGlyphStep_extends C j s) g
    ⟨t ++ [Call.ScriptCacheGetHeight, Call.ScriptGetFontProperties] ++
        [Call.HeapAlloc Buf.wOutGlyphs],
      (o (t ++ [Call.ScriptCacheGetHeight, Call.ScriptGetFontProperties])).stack, 0, []⟩
  dsimp only at h1 ⊢
  split
  · exact (h0.trans h1).trans (Extends.append _ _ (by simp [origin]))
  · exact h0.trans h1

theorem TestUniscribe_extends (cfg : Config) (o : Subsystem) (g : GLYPHSET) (t : List Call) :
    Extends isUniscribeCall t (TestUniscribe cfg o g t) := by
  unfold TestUniscribe
  exact (((uniscribeBatches_extends _ o g t).mono (fun c h => Or.inl h)).trans
    ((layoutSurface_extends o g _).mono (fun c h => Or.inr h))).trans
    (Extends.append _ _ (by simp [origin, isUniscribeCall]))

theorem outlineStep_extends (o : Subsystem) (j : Nat) (t : List Call) (format : Nat) :
    Extends (fun c => origin c = Origin.outline) t (outlineStep o j t format) := by
  unfold outlineStep
  dsimp only
  split
  · exact (Extends.append _ _ (by simp [origin])).trans (Extends.append _ _ (by simp [origin]))
  · exact Extends.append _ _ (by simp [origin])

theorem drawStep_extends (C j : Nat) (s : BatchState) :
    Extends (fun c => origin c = Origin.drawing) s.trace (drawStep C j s).trace := by
  unfold drawStep
  dsimp only
  split
  · exact Extends.append _ _ (by simp [origin])
  · exact Extends.refl _ _

theorem outlineFold_extends (o : Subsystem) (j : Nat) (t : List Call) :
    Extends (fun c => origin c = Origin.outline) t (glyph_formats.foldl (outlineStep o j) t) :=
  foldl_extends (fun t => t) _ _ (fun t f => outlineStep_extends o j t f) _ _

theorem wmainGlyphStep_extends (cfg : Config) (o : Subsystem) (j : Nat) (s : BatchState) :
    Extends isGlyphLoopCall s.trace (wmainGlyphStep cfg o j s).trace := by
  unfold wmainGlyphStep
  have h1 : Extends isGlyphLoopCall s.trace (glyph_formats.foldl (outlineStep o j) s.trace) :=
    (outlineFold_extends o j s.trace).mono (fun c h => Or.inl h)
  dsimp only
  cases cfg.HARNESS_TEST_GLYPH_OUTLINE <;> cases cfg.HARNESS_TEST_DRAWTEXT
  · exact Extends.refl _ _
  · exact (drawStep_extends _ _ _).mono (fun c h => Or.inr h)
  · exact h1
  · exact h1.trans ((drawStep_extends _ _ _).mono (fun c h => Or.inr h))

theorem wmainGlyphs_extends (cfg : Config) (o : Subsystem) (g : GLYPHSET) (t : List Call) :
    Extends isGlyphLoopCall t (wmainGlyphs cfg o g t).trace := by
  unfold wmainGlyphs
  have h1 := glyphWalk_extends (fun s : BatchState => s.trace) _ _
    (fun j s => wmainGlyphStep_extends cfg o j s) g ⟨t, (o t).stack, 0, []⟩
  dsimp only at h1 ⊢
  split
  · exact h1.trans (Extends.append _ _ (by simp [origin, isGlyphLoopCall]))
  · exact h1

theorem kerningPairs_extends (o : Subsystem) (t : List Call) :
    Extends (fun c => origin c = Origin.kerning) t (kerningPairs o t) := by
  unfold kerningPairs
  dsimp only
  split
  · exact (Extends.append _ _ (by simp [origin])).trans (Extends.append _ _ (by simp [origin]))
  · exact Extends.append _ _ (by simp [origin])

/-! ### Batching -/

theorem readBuffer_store_succ (buf : Nat → Nat) (n v : Nat) :
    readBuffer (store buf n v) (n + 1) = readBuffer buf n ++ [v] := by
  unfold readBuffer
  rw [List.range_succ, List.map_append]
  congr 1
  · apply List.map_congr_left
    intro i hi
    have : i ≠ n := by
      have := List.mem_range.1 hi
      omega
    simp [store, this]
  · simp [store]

theorem readBuffer_zero (buf : Nat → Nat) : readBuffer buf 0 = [] := rfl

theorem readBuffer_length (buf : Nat → Nat) (n : Nat) : (readBuffer buf n).length = n := by
  simp [readBuffer]

/-- What a batching state has taken in so far: the runs already handed to
`ScriptGetCMap`, then the characters waiting in the buffer. -/
theorem uniscribeGlyphStep_emitted (C j : Nat) (s : BatchState) :
    (cmapRuns (uniscribeGlyphStep C j s).trace).flatten ++
        readBuffer (uniscribeGlyphStep C j s).szTextBuffer (uniscribeGlyphStep C j s).dwTextCount
      = ((cmapRuns s.trace).flatten ++ readBuffer s.szTextBuffer s.dwTextCount) ++ [j % 65536] := by
  unfold uniscribeGlyphStep
  dsimp only
  split
  · rw [readBuffer_store_succ]
    simp [cmapRuns, List.filterMap_append, readBuffer_zero]
  · rw [readBuffer_store_succ]
    simp [cmapRuns, List.filterMap_append]

theorem uniscribe_foldl_emitted (C : Nat) :
    ∀ (pts : List Nat) (s : BatchState),
      (cmapRuns (pts.foldl (fun s1 j => uniscribeGlyphStep C j s1) s).trace).flatten ++
          readBuffer (pts.foldl (fun s1 j => uniscribeGlyphStep C j s1) s).szTextBuffer
            (pts.foldl (fun s1 j => uniscribeGlyphStep C j s1) s).dwTextCount
        = ((cmapRuns s.trace).flatten ++ readBuffer s.szTextBuffer s.dwTextCount) ++
            pts.map (fun j => j % 65536) := by
  intro pts
  induction pts with
  | nil => intro s; simp
  | cons j js ih =>
    intro s
    rw [List.foldl_cons, ih, uniscribeGlyphStep_emitted]
    simp

theorem uniscribeBatches_flushed (C : Nat) (o : Subsystem) (g : GLYPHSET) (t : List Call) :
    (cmapRuns (uniscribeBatches C o g t).trace).flatten
      = (cmapRuns t).flatten ++ (coveragePoints g).map (fun j => j % 65536) := by
  unfold uniscribeBatches
  dsimp only
  rw [glyphWalk_eq_foldl]
  have h := uniscribe_foldl_emitted C (coveragePoints g)
    ⟨t ++ [Call.ScriptCacheGetHeight, Call.ScriptGetFontProperties] ++
        [Call.HeapAlloc Buf.wOutGlyphs],
      (o (t ++ [Call.ScriptCacheGetHeight, Call.ScriptGetFontProperties])).stack, 0, []⟩
  have h0 : cmapRuns (t ++ [Call.ScriptCacheGetHeight, Call.ScriptGetFontProperties] ++
        [Call.HeapAlloc Buf.wOutGlyphs]) = cmapRuns t := by
    simp [cmapRuns, List.filterMap_append]
  dsimp only at h
  rw [h0, readBuffer_zero, List.append_nil] at h
  generalize List.foldl (fun s1 j => uniscribeGlyphStep C j s1)
    (⟨t ++ [Call.ScriptCacheGetHeight, Call.ScriptGetFontProperties] ++
        [Call.HeapAlloc Buf.wOutGlyphs],
      (o (t ++ [Call.ScriptCacheGetHeight, Call.ScriptGetFontProperties])).stack, 0, []⟩ :
        BatchState) (coveragePoints g) = sf at h ⊢
  split
  · rw [← h]
    simp [cmapRuns, List.filterMap_append]
  · rename_i hpos
    have hz : sf.dwTextCount = 0 := by omega
    rw [← h, hz, readBuffer_zero, List.append_nil]

theorem uniscribeGlyphStep_metrics (C j : Nat) (s : BatchState) :
    metricsQueries (uniscribeGlyphStep C j s).trace = metricsQueries s.trace ++ [j % 65536] := by
  unfold uniscribeGlyphStep
  dsimp only
  split <;> simp [metricsQueries, List.filterMap_append]

theorem uniscribe_foldl_metrics (C : Nat) :
    ∀ (pts : List Nat) (s : BatchState),
      metricsQueries (pts.foldl (fun s1 j => uniscribeGlyphStep C j s1) s).trace
        = metricsQueries s.trace ++ pts.map (fun j => j % 65536) := by
  intro pts
  induction pts with
  | nil => intro s; simp
  | cons j js ih =>
    intro s
    rw [List.foldl_cons, ih, uniscribeGlyphStep_metrics]
    simp

theorem uniscribeBatches_metrics (C : Nat) (o : Subsystem) (g : GLYPHSET) (t : List Call) :
    metricsQueries (uniscribeBatches C o g t).trace
      = metricsQueries t ++ (coveragePoints g).map (fun j => j % 65536) := by
  unfold uniscribeBatches
  dsimp only
  rw [glyphWalk_eq_foldl]
  have h := uniscribe_foldl_metrics C (coveragePoints g)
    ⟨t ++ [Call.ScriptCacheGetHeight, Call.ScriptGetFontProperties] ++
        [Call.HeapAlloc Buf.wOutGlyphs],
      (o (t ++ [Call.ScriptCacheGetHeight, Call.ScriptGetFontProperties])).stack, 0, []⟩
  have h0 : metricsQueries (t ++ [Call.ScriptCacheGetHeight, Call.ScriptGetFontProperties] ++
        [Call.HeapAlloc Buf.wOutGlyphs]) = metricsQueries t := by
    simp [metricsQueries, List.filterMap_append]
  dsimp only at h
  rw [h0] at h
  split
  · rw [← h]
    simp [metricsQueries, List.filterMap_append]
  · exact h

theorem map_mod_of_lt (pts : List Nat) (h : ∀ j ∈ pts, j < 65536) :
    pts.map (fun j => j % 65536) = pts := by
  induction pts with
  | nil => rfl
  | cons a l ih =>
    have ha : a < 65536 := h a (by simp)
    simp only [List.map_cons, Nat.mod_eq_of_lt ha]
    rw [ih (fun j hj => h j (by simp [hj]))]

/-! ### Bounds of the batch buffer of `TestUniscribe` -/

theorem uniscribeGlyphStep_bounds (C j : Nat) (s : BatchState)
    (hcnt : s.dwTextCount < C) (hst : ∀ i ∈ s.stores, i < C) :
    (uniscribeGlyphStep C j s).dwTextCount < C ∧
      (∀ i ∈ (uniscribeGlyphStep C j s).stores, i < C) ∧
      Extends (cmapCountOK C) s.trace (uniscribeGlyphStep C j s).trace := by
  unfold uniscribeGlyphStep
  dsimp only
  split
  · rename_i hfull
    refine ⟨by show 0 < C; omega, ?_, ?_⟩
    · intro i hi
      rcases List.mem_append.1 hi with h | h
      · exact hst i h
      · simp at h; omega
    · refine (Extends.append _ _ ?_).trans (Extends.append _ _ ?_)
      · simp [cmapCountOK]
      · intro c hc
        rw [List.mem_singleton] at hc
        subst hc
        exact ⟨by omega, by omega, readBuffer_length _ _⟩
  · rename_i hfull
    refine ⟨by show s.dwTextCount + 1 < C; omega, ?_, ?_⟩
    · intro i hi
      rcases List.mem_append.1 hi with h | h
      · exact hst i h
      · simp at h; omega
    · exact Extends.append _ _ (by simp [cmapCountOK])

theorem uniscribe_foldl_bounds (C : Nat) :
    ∀ (pts : List Nat) (s : BatchState), s.dwTextCount < C → (∀ i ∈ s.stores, i < C) →
      (pts.foldl (fun s1 j => uniscribeGlyphStep C j s1) s).dwTextCount < C ∧
      (∀ i ∈ (pts.foldl (fun s1 j => uniscribeGlyphStep C j s1) s).stores, i < C) ∧
      Extends (cmapCountOK C) s.trace
        (pts.foldl (fun s1 j => uniscribeGlyphStep C j s1) s).trace := by
  intro pts
  induction pts with
  | nil => intro s h1 h2; exact ⟨h1, h2, Extends.refl _ _⟩
  | cons j js ih =>
    intro s h1 h2
    obtain ⟨a, b, c⟩ := uniscribeGlyphStep_bounds C j s h1 h2
    obtain ⟨a1, b1, c1⟩ := ih (uniscribeGlyphStep C j s) a b
    exact ⟨a1, b1, c.trans c1⟩

theorem uniscribeBatches_bounds (C : Nat) (hC : 0 < C) (o : Subsystem) (g : GLYPHSET)
    (t : List Call) :
    (∀ i ∈ (uniscribeBatches C o g t).stores, i < C) ∧
      Extends (cmapCountOK C) t (uniscribeBatches C o g t).trace := by
  unfold uniscribeBatches
  dsimp only
  rw [glyphWalk_eq_foldl]
  have h := uniscribe_foldl_bounds C (coveragePoints g)
    ⟨t ++ [Call.ScriptCacheGetHeight, Call.ScriptGetFontProperties] ++
        [Call.HeapAlloc Buf.wOutGlyphs],
      (o (t ++ [Call.ScriptCacheGetHeight, Call.ScriptGetFontProperties])).stack, 0, []⟩
    hC (by simp)
  have h0 : Extends (cmapCountOK C) t
      (t ++ [Call.ScriptCacheGetHeight, Call.ScriptGetFontProperties] ++
        [Call.HeapAlloc Buf.wOutGlyphs]) :=
    (Extends.append _ _ (by simp [cmapCountOK])).trans (Extends.append _ _ (by simp [cmapCountOK]))
  dsimp only at h
  generalize List.foldl (fun s1 j => uniscribeGlyphStep C j s1)
    (⟨t ++ [Call.ScriptCacheGetHeight, Call.ScriptGetFontProperties] ++
        [Call.HeapAlloc Buf.wOutGlyphs],
      (o (t ++ [Call.ScriptCacheGetHeight, Call.ScriptGetFontProperties])).stack, 0, []⟩ :
        BatchState) (coveragePoints g) = sf at h ⊢
  obtain ⟨h1, h2, h3⟩ := h
  split
  · rename_i hpos
    refine ⟨h2, (h0.trans h3).trans (Extends.append _ _ ?_)⟩
    intro c hc
    rw [List.mem_singleton] at hc
    subst hc
    exact ⟨by omega, by omega, readBuffer_length _ _⟩
  · exact ⟨h2, h0.trans h3⟩

/-! ### The string drawn by `wmain` -/

theorem readBuffer_store_of_le (buf : Nat → Nat) (k n v : Nat) (h : n ≤ k) :
    readBuffer (store buf k v) n = readBuffer buf n := by
  unfold readBuffer
  apply List.map_congr_left
  intro i hi
  have : i ≠ k := by
    have := List.mem_range.1 hi
    omega
  simp [store, this]

theorem cString_store_zero (buf : Nat → Nat) (k cap : Nat) (hk : k < cap)
    (hnz : ∀ i, i < k → buf i ≠ 0) :
    cString (store buf k 0) cap = readBuffer buf k := by
  obtain ⟨m, rfl⟩ : ∃ m, cap = k + (m + 1) := ⟨cap - k - 1, by omega⟩
  unfold cString
  have hsplit : readBuffer (store buf k 0) (k + (m + 1))
      = readBuffer buf k ++ (0 :: (List.range m).map (fun i => store buf k 0 (k + (i + 1)))) := by
    have h1 : readBuffer (store buf k 0) (k + (m + 1))
        = readBuffer (store buf k 0) k ++
            (List.range (m + 1)).map (fun i => store buf k 0 (k + i)) := by
      unfold readBuffer
      rw [List.range_add, List.map_append, List.map_map]
      rfl
    rw [h1, readBuffer_store_of_le buf k k 0 (le_refl k), List.range_succ_eq_map]
    simp [store, List.map_map, Function.comp_def]
  rw [hsplit, List.takeWhile_append_of_pos]
  · simp
  · intro a ha
    unfold readBuffer at ha
    obtain ⟨i, hi, rfl⟩ := List.mem_map.1 ha
    have := hnz i (List.mem_range.1 hi)
    simpa using this

theorem drawStep_emitted (C j : Nat) (s : BatchState) (hinv : DrawInv C s)
    (hj : j % 65536 ≠ 0) :
    DrawInv C (drawStep C j s) ∧
      (drawRuns (drawStep C j s).trace).flatten ++
          readBuffer (drawStep C j s).szTextBuffer (drawStep C j s).dwTextCount
        = ((drawRuns s.trace).flatten ++ readBuffer s.szTextBuffer s.dwTextCount) ++
            [j % 65536] := by
  obtain ⟨hcnt, hnz⟩ := hinv
  have hnz1 : ∀ i, i < s.dwTextCount + 1 →
      store s.szTextBuffer s.dwTextCount (j % 65536) i ≠ 0 := by
    intro i hi
    unfold store
    by_cases e : i = s.dwTextCount
    · simp [e, hj]
    · simp only [e, if_false]
      exact hnz i (by omega)
  unfold drawStep
  dsimp only
  split
  · rename_i hfull
    have hC : s.dwTextCount + 1 = C := by omega
    refine ⟨⟨by show 0 < C; omega, fun i hi => absurd hi (Nat.not_lt_zero i)⟩, ?_⟩
    have hs : cString (store (store s.szTextBuffer s.dwTextCount (j % 65536)) C 0) (C + 1)
        = readBuffer s.szTextBuffer s.dwTextCount ++ [j % 65536] := by
      rw [cString_store_zero _ C (C + 1) (by omega) (fun i hi => hnz1 i (by omega)), ← hC,
        readBuffer_store_succ]
    rw [hs]
    simp [drawRuns, List.filterMap_append, readBuffer_zero]
  · rename_i hfull
    refine ⟨⟨by show s.dwTextCount + 1 < C; omega, hnz1⟩, ?_⟩
    rw [readBuffer_store_succ]
    simp

theorem wmainGlyphStep_emitted (cfg : Config) (o : Subsystem) (j : Nat) (s : BatchState)
    (hdraw : cfg.HARNESS_TEST_DRAWTEXT = true)
    (hinv : DrawInv cfg.DISPLAYED_GLYPHS_COUNT s) (hj : j % 65536 ≠ 0) :
    DrawInv cfg.DISPLAYED_GLYPHS_COUNT (wmainGlyphStep cfg o j s) ∧
      (drawRuns (wmainGlyphStep cfg o j s).trace).flatten ++
          readBuffer (wmainGlyphStep cfg o j s).szTextBuffer
            (wmainGlyphStep cfg o j s).dwTextCount
        = ((drawRuns s.trace).flatten ++ readBuffer s.szTextBuffer s.dwTextCount) ++
            [j % 65536] := by
  unfold wmainGlyphStep
  dsimp only
  rw [hdraw]
  simp only [if_true]
  cases cfg.HARNESS_TEST_GLYPH_OUTLINE
  · simpa using drawStep_emitted cfg.DISPLAYED_GLYPHS_COUNT j s hinv hj
  · have hout : drawRuns (glyph_formats.foldl (outlineStep o j) s.trace) = drawRuns s.trace :=
      (outlineFold_extends o j s.trace).filterMap_eq _ (by
        intro c hc
        cases c <;> simp_all [origin])
    have h := drawStep_emitted cfg.DISPLAYED_GLYPHS_COUNT j
      ⟨glyph_formats.foldl (outlineStep o j) s.trace, s.szTextBuffer, s.dwTextCount, s.stores⟩
      hinv hj
    dsimp only at h
    rw [hout] at h
    simpa using h

theorem wmain_foldl_emitted (cfg : Config) (o : Subsystem)
    (hdraw : cfg.HARNESS_TEST_DRAWTEXT = true) :
    ∀ (pts : List Nat) (s : BatchState), DrawInv cfg.DISPLAYED_GLYPHS_COUNT s →
      (∀ j ∈ pts, j % 65536 ≠ 0) →
      DrawInv cfg.DISPLAYED_GLYPHS_COUNT (pts.foldl (fun s1 j => wmainGlyphStep cfg o j s1) s) ∧
      (drawRuns (pts.foldl (fun s1 j => wmainGlyphStep cfg o j s1) s).trace).flatten ++
          readBuffer (pts.foldl (fun s1 j => wmainGlyphStep cfg o j s1) s).szTextBuffer
            (pts.foldl (fun s1 j => wmainGlyphStep cfg o j s1) s).dwTextCount
        = ((drawRuns s.trace).flatten ++ readBuffer s.szTextBuffer s.dwTextCount) ++
            pts.map (fun j => j % 65536) := by
  intro pts
  induction pts with
  | nil => intro s h _; exact ⟨h, by simp⟩
  | cons j js ih =>
    intro s hinv hnz
    obtain ⟨h1, h2⟩ := wmainGlyphStep_emitted cfg o j s hdraw hinv (hnz j (by simp))
    obtain ⟨h3, h4⟩ := ih (wmainGlyphStep cfg o j s) h1 (fun k hk => hnz k (by simp [hk]))
    refine ⟨h3, ?_⟩
    rw [List.foldl_cons, h4, h2]
    simp

theorem wmainGlyphs_drawn (cfg : Config) (o : Subsystem) (g : GLYPHSET) (t : List Call)
    (hdraw : cfg.HARNESS_TEST_DRAWTEXT = true) (hC : 0 < cfg.DISPLAYED_GLYPHS_COUNT)
    (hnz : ∀ j ∈ coveragePoints g, j % 65536 ≠ 0) :
    (drawRuns (wmainGlyphs cfg o g t).trace).flatten
      = (drawRuns t).flatten ++ (coveragePoints g).map (fun j => j % 65536) := by
  unfold wmainGlyphs
  dsimp only
  rw [glyphWalk_eq_foldl]
  have h := wmain_foldl_emitted cfg o hdraw (coveragePoints g) ⟨t, (o t).stack, 0, []⟩
    ⟨hC, fun i hi => absurd hi (Nat.not_lt_zero i)⟩ hnz
  dsimp only at h
  rw [readBuffer_zero, List.append_nil] at h
  generalize List.foldl (fun s1 j => wmainGlyphStep cfg o j s1)
    (⟨t, (o t).stack, 0, []⟩ : BatchState) (coveragePoints g) = sf at h ⊢
  obtain ⟨⟨hcnt, hbuf⟩, hem⟩ := h
  rw [hdraw]
  by_cases hpos : 0 < sf.dwTextCount
  · simp only [Bool.true_and, decide_eq_true_eq, hpos, if_true]
    rw [← hem, cString_store_zero _ _ _ (by omega) hbuf]
    simp [drawRuns, List.filterMap_append]
  · simp only [Bool.true_and, decide_eq_true_eq, hpos, if_false]
    have hz : sf.dwTextCount = 0 := by omega
    rw [← hem, hz, readBuffer_zero, List.append_nil]

theorem drawStep_bounds (C j : Nat) (s : BatchState)
    (hcnt : s.dwTextCount < C) (hst : ∀ i ∈ s.stores, i ≤ C) :
    (drawStep C j s).dwTextCount < C ∧ ∀ i ∈ (drawStep C j s).stores, i ≤ C := by
  unfold drawStep
  dsimp only
  split
  · refine ⟨by show 0 < C; omega, ?_⟩
    intro i hi
    rcases List.mem_append.1 hi with h | h
    · exact hst i h
    · simp at h; omega
  · rename_i hfull
    refine ⟨by show s.dwTextCount + 1 < C; omega, ?_⟩
    intro i hi
    rcases List.mem_append.1 hi with h | h
    · exact hst i h
    · simp at h; omega

theorem wmainGlyphStep_bounds (cfg : Config) (o : Subsystem) (j : Nat) (s : BatchState)
    (hcnt : s.dwTextCount < cfg.DISPLAYED_GLYPHS_COUNT)
    (hst : ∀ i ∈ s.stores, i ≤ cfg.DISPLAYED_GLYPHS_COUNT) :
    (wmainGlyphStep cfg o j s).dwTextCount < cfg.DISPLAYED_GLYPHS_COUNT ∧
      ∀ i ∈ (wmainGlyphStep cfg o j s).stores, i ≤ cfg.DISPLAYED_GLYPHS_COUNT := by
  unfold wmainGlyphStep
  dsimp only
  cases cfg.HARNESS_TEST_GLYPH_OUTLINE <;> cases cfg.HARNESS_TEST_DRAWTEXT
  · exact ⟨hcnt, hst⟩
  · exact drawStep_bounds _ j s hcnt hst
  · exact ⟨hcnt, hst⟩
  · exact drawStep_bounds _ j
      ⟨glyph_formats.foldl (outlineStep o j) s.trace, s.szTextBuffer, s.dwTextCount, s.stores⟩
      hcnt hst

theorem wmain_foldl_bounds (cfg : Config) (o : Subsystem) :
    ∀ (pts : List Nat) (s : BatchState), s.dwTextCount < cfg.DISPLAYED_GLYPHS_COUNT →
      (∀ i ∈ s.stores, i ≤ cfg.DISPLAYED_GLYPHS_COUNT) →
      (pts.foldl (fun s1 j => wmainGlyphStep cfg o j s1) s).dwTextCount
          < cfg.DISPLAYED_GLYPHS_COUNT ∧
      ∀ i ∈ (pts.foldl (fun s1 j => wmainGlyphStep cfg o j s1) s).stores,
        i ≤ cfg.DISPLAYED_GLYPHS_COUNT := by
  intro pts
  induction pts with
  | nil => intro s h1 h2; exact ⟨h1, h2⟩
  | cons j js ih =>
    intro s h1 h2
    obtain ⟨a, b⟩ := wmainGlyphStep_bounds cfg o j s h1 h2
    exact ih (wmainGlyphStep cfg o j s) a b

theorem wmainGlyphs_bounds (cfg : Config) (hC : 0 < cfg.DISPLAYED_GLYPHS_COUNT) (o : Subsystem)
    (g : GLYPHSET) (t : List Call) :
    ∀ i ∈ (wmainGlyphs cfg o g t).stores, i ≤ cfg.DISPLAYED_GLYPHS_COUNT := by
  unfold wmainGlyphs
  dsimp only
  rw [glyphWalk_eq_foldl]
  have h := wmain_foldl_bounds cfg o (coveragePoints g) ⟨t, (o t).stack, 0, []⟩ hC (by simp)
  generalize List.foldl (fun s1 j => wmainGlyphStep cfg o j s1)
    (⟨t, (o t).stack, 0, []⟩ : BatchState) (coveragePoints g) = sf at h ⊢
  obtain ⟨h1, h2⟩ := h
  split
  · intro i hi
    rcases List.mem_append.1 hi with h | h
    · exact h2 i h
    · simp at h; omega
  · exact h2

/-! ### The outline queries of `wmain` -/

theorem outlineStep_queries (f : Nat) (o : Subsystem) (j : Nat) (t : List Call) (f1 : Nat) :
    outlineQueries f (outlineStep o j t f1)
      = outlineQueries f t ++ (if f1 = f then [j] else []) := by
  unfold outlineStep
  dsimp only
  split <;> by_cases e : f1 = f <;> simp [outlineQueries, List.filterMap_append, e]

theorem outlineFold_queries (f : Nat) (hf : f ∈ glyph_formats) (o : Subsystem) (j : Nat)
    (t : List Call) :
    outlineQueries f (glyph_formats.foldl (outlineStep o j) t) = outlineQueries f t ++ [j] := by
  simp only [glyph_formats, List.mem_cons, List.mem_singleton, List.not_mem_nil, or_false] at hf
  simp only [glyph_formats, List.foldl_cons, List.foldl_nil, outlineStep_queries]
  rcases hf with h | h | h | h | h | h <;> subst h <;> simp

theorem wmainGlyphStep_outline (cfg : Config) (o : Subsystem) (j : Nat) (s : BatchState)
    (hout : cfg.HARNESS_TEST_GLYPH_OUTLINE = true) (f : Nat) (hf : f ∈ glyph_formats) :
    outlineQueries f (wmainGlyphStep cfg o j s).trace = outlineQueries f s.trace ++ [j] := by
  unfold wmainGlyphStep
  dsimp only
  rw [hout]
  simp only [if_true]
  cases cfg.HARNESS_TEST_DRAWTEXT
  · simpa using outlineFold_queries f hf o j s.trace
  · have h := (drawStep_extends cfg.DISPLAYED_GLYPHS_COUNT j
      ⟨glyph_formats.foldl (outlineStep o j) s.trace, s.szTextBuffer, s.dwTextCount,
        s.stores⟩).filterMap_eq (fun c => match c with
          | Call.GetGlyphOutline glyph f1 false => if f1 = f then some glyph else none
          | _ => none) (by
        intro c hc
        cases c <;> simp_all [origin])
    simp only [if_true]
    unfold outlineQueries
    rw [h]
    exact outlineFold_queries f hf o j s.trace

theorem wmainGlyphs_outline (cfg : Config) (o : Subsystem) (g : GLYPHSET) (t : List Call)
    (hout : cfg.HARNESS_TEST_GLYPH_OUTLINE = true) (f : Nat) (hf : f ∈ glyph_formats) :
    outlineQueries f (wmainGlyphs cfg o g t).trace = outlineQueries f t ++ coveragePoints g := by
  unfold wmainGlyphs
  dsimp only
  rw [glyphWalk_eq_foldl]
  have h : ∀ (pts : List Nat) (s : BatchState),
      outlineQueries f (pts.foldl (fun s1 j => wmainGlyphStep cfg o j s1) s).trace
        = outlineQueries f s.trace ++ pts := by
    intro pts
    induction pts with
    | nil => intro s; simp
    | cons j js ih =>
      intro s
      rw [List.foldl_cons, ih, wmainGlyphStep_outline cfg o j s hout f hf]
      simp
  have h1 := h (coveragePoints g) ⟨t, (o t).stack, 0, []⟩
  dsimp only at h1
  split
  · rw [← h1]
    simp [outlineQueries, List.filterMap_append]
  · exact h1

theorem TestUniscribe_flushed (cfg : Config) (o : Subsystem) (g : GLYPHSET) (t : List Call) :
    (cmapRuns (TestUniscribe cfg o g t)).flatten
      = (cmapRuns t).flatten ++ (coveragePoints g).map (fun j => j % 65536) := by
  have h1 : cmapRuns (TestUniscribe cfg o g t)
      = cmapRuns (uniscribeBatches cfg.DISPLAYED_GLYPHS_COUNT o g t).trace := by
    unfold TestUniscribe
    dsimp only
    have h := (layoutSurface_extends o g
      (uniscribeBatches cfg.DISPLAYED_GLYPHS_COUNT o g t).trace).filterMap_eq
      (fun c => match c with
        | Call.ScriptGetCMap chars _ => some chars
        | _ => none) (by
        intro c hc
        cases c <;> simp_all [origin])
    unfold cmapRuns
    rw [List.filterMap_append, h]
    simp
  rw [h1, uniscribeBatches_flushed]

theorem TestUniscribe_metrics (cfg : Config) (o : Subsystem) (g : GLYPHSET) (t : List Call) :
    metricsQueries (TestUniscribe cfg o g t)
      = metricsQueries t ++ (coveragePoints g).map (fun j => j % 65536) := by
  have h1 : metricsQueries (TestUniscribe cfg o g t)
      = metricsQueries (uniscribeBatches cfg.DISPLAYED_GLYPHS_COUNT o g t).trace := by
    unfold TestUniscribe
    dsimp only
    have h := (layoutSurface_extends o g
      (uniscribeBatches cfg.DISPLAYED_GLYPHS_COUNT o g t).trace).filterMap_eq
      (fun c => match c with
        | Call.ScriptGetGlyphABCWidth glyph => some glyph
        | _ => none) (by
        intro c hc
        cases c <;> simp_all [origin])
    unfold metricsQueries
    rw [List.filterMap_append, h]
    simp
  rw [h1, uniscribeBatches_metrics]

theorem TestUniscribe_counts (cfg : Config) (hC : 0 < cfg.DISPLAYED_GLYPHS_COUNT)
    (o : Subsystem) (g : GLYPHSET) (t : List Call) :
    Extends (cmapCountOK cfg.DISPLAYED_GLYPHS_COUNT) t (TestUniscribe cfg o g t) := by
  unfold TestUniscribe
  dsimp only
  refine (((uniscribeBatches_bounds _ hC o g t).2).trans
    ((layoutSurface_extends o g _).mono ?_)).trans (Extends.append _ _ ?_)
  · intro c hc
    cases c <;> simp_all [origin, cmapCountOK]
  · simp [cmapCountOK]

/-! ### The layout surface -/

theorem foldl_snoc_map (f : Nat → Call) :
    ∀ (l : List Nat) (t : List Call), l.foldl (fun t1 k => t1 ++ [f k]) t = t ++ l.map f := by
  intro l
  induction l with
  | nil => intro t; simp
  | cons a l ih => intro t; rw [List.foldl_cons, ih]; simp

theorem substituteLoop_eq (script lang feature glyph : Nat) (n : Int) (t : List Call) :
    substituteLoop script lang feature glyph n t
      = t ++ (List.range' 1 (n.toNat - 1)).map
          (fun a => Call.ScriptSubstituteSingleGlyph script lang feature a glyph) := by
  unfold substituteLoop
  rw [forLoop_eq_foldl]
  exact foldl_snoc_map _ _ _

theorem alternatesStep_eq (o : Subsystem) (script lang feature j : Nat) (t : List Call) :
    alternatesStep o script lang feature j t
      = t ++ Call.ScriptGetFontAlternateGlyphs script lang feature (j % 65536) ::
          (if (o (t ++ [Call.ScriptGetFontAlternateGlyphs script lang feature (j % 65536)])).ret
                = 0 then
            (List.range' 1
              ((o (t ++ [Call.ScriptGetFontAlternateGlyphs script lang feature
                (j % 65536)])).count.toNat - 1)).map
              (fun a => Call.ScriptSubstituteSingleGlyph script lang feature a (j % 65536))
          else []) := by
  unfold alternatesStep
  dsimp only
  split
  · rw [substituteLoop_eq]; simp
  · simp

theorem forLoop_congr {σ : Type} (lo hi : Nat) (body body1 : Nat → σ → σ)
    (h : ∀ j s, body j s = body1 j s) (s : σ) :
    forLoop lo hi body s = forLoop lo hi body1 s := by
  have : body = body1 := funext (fun j => funext (fun s => h j s))
  rw [this]

theorem layoutSurface_congr (o o1 : Subsystem) (g : GLYPHSET)
    (hagree : ∀ h : List Call,
      (∀ s l f a gl, h.getLast? ≠ some (Call.ScriptSubstituteSingleGlyph s l f a gl)) →
        o h = o1 h) (t : List Call) :
    layoutSurface o g t = layoutSurface o1 g t := by
  have hq : ∀ (h : List Call) (c : Call),
      (∀ s l f a gl, c ≠ Call.ScriptSubstituteSingleGlyph s l f a gl) →
        o (h ++ [c]) = o1 (h ++ [c]) := by
    intro h c hc
    apply hagree
    intro s l f a gl
    rw [List.getLast?_append]
    simpa using hc s l f a gl
  have e1 : alternatesStep o = alternatesStep o1 := by
    funext s l f j t
    unfold alternatesStep
    dsimp only
    rw [hq t (Call.ScriptGetFontAlternateGlyphs s l f (j % 65536)) (by intros; simp)]
  have e2 : featureStep o = featureStep o1 := by
    funext g s l F i t
    unfold featureStep
    rw [e1]
  have e3 : languageStep o = languageStep o1 := by
    funext g s L i t
    unfold languageStep
    dsimp only
    rw [hq t (Call.ScriptGetFontFeatureTags s (L i)) (by intros; simp), e2]
  have e4 : scriptStep o = scriptStep o1 := by
    funext g S i t
    unfold scriptStep
    dsimp only
    rw [hq t (Call.ScriptGetFontLanguageTags (S i)) (by intros; simp), e3]
  unfold layoutSurface
  rw [e4]
  have := hq (t ++ [Call.HeapAlloc Buf.ScriptTags, Call.HeapAlloc Buf.LangTags,
      Call.HeapAlloc Buf.FeatureTags, Call.HeapAlloc Buf.AlternateGlyphs])
    Call.ScriptGetFontScriptTags (by intros; simp)
  dsimp only
  rw [this]

theorem TestUniscribe_congr (cfg : Config) (o o1 : Subsystem) (g : GLYPHSET)
    (hagree : ∀ h : List Call,
      (∀ s l f a gl, h.getLast? ≠ some (Call.ScriptSubstituteSingleGlyph s l f a gl)) →
        o h = o1 h) (t : List Call) :
    TestUniscribe cfg o g t = TestUniscribe cfg o1 g t := by
  unfold TestUniscribe
  have hb : uniscribeBatches cfg.DISPLAYED_GLYPHS_COUNT o g t
      = uniscribeBatches cfg.DISPLAYED_GLYPHS_COUNT o1 g t := by
    unfold uniscribeBatches
    have : o (t ++ [Call.ScriptCacheGetHeight, Call.ScriptGetFontProperties])
        = o1 (t ++ [Call.ScriptCacheGetHeight, Call.ScriptGetFontProperties]) := by
      apply hagree
      intro s l f a gl
      simp [List.getLast?_append]
    dsimp only
    rw [this]
  dsimp only
  rw [hb, layoutSurface_congr o o1 g hagree]

theorem forLoop_zero_succ {σ : Type} (k : Nat) (body : Nat → σ → σ) (s : σ) :
    forLoop 0 (k + 1) body s = body k (forLoop 0 k body s) := by
  rw [forLoop_eq_foldl, forLoop_eq_foldl]
  simp only [Nat.sub_zero]
  rw [List.range'_concat, List.foldl_append]
  simp

theorem forLoop_filterMap {β : Type} (f : Call → Option β) (body : Nat → List Call → List Call)
    (items : Nat → List β)
    (h : ∀ j t, (body j t).filterMap f = t.filterMap f ++ items j) (n : Nat) (t : List Call) :
    (forLoop 0 n body t).filterMap f = t.filterMap f ++ (List.range n).flatMap items := by
  induction n with
  | zero => simp [forLoop, forLoopAux]
  | succ k ih =>
    rw [forLoop_zero_succ, h, ih, List.range_succ, List.flatMap_append]
    simp

theorem foldl_filterMap {β : Type} (f : Call → Option β) (body : Nat → List Call → List Call)
    (items : Nat → List β)
    (h : ∀ j t, (body j t).filterMap f = t.filterMap f ++ items j) :
    ∀ (l : List Nat) (t : List Call),
      (l.foldl (fun t1 j => body j t1) t).filterMap f = t.filterMap f ++ l.flatMap items := by
  intro l
  induction l with
  | nil => intro t; simp
  | cons a l ih =>
    intro t
    rw [List.foldl_cons, ih, h, List.flatMap_cons]
    simp

theorem alternatesStep_extends_below (o : Subsystem) (script lang feature j : Nat)
    (t : List Call) :
    Extends belowFeature t (alternatesStep o script lang feature j t) := by
  rw [alternatesStep_eq]
  refine Extends.append _ _ ?_
  intro c hc
  rcases List.mem_cons.1 hc with h | h
  · subst h; simp [belowFeature]
  · split at h
    · obtain ⟨a, _, rfl⟩ := List.mem_map.1 h
      simp [belowFeature]
    · simp at h

theorem featureStep_extends_below (o : Subsystem) (g : GLYPHSET) (script lang : Nat)
    (FeatureTags : Nat → Nat) (FeatureTag : Nat) (t : List Call) :
    Extends belowFeature t (featureStep o g script lang FeatureTags FeatureTag t) := by
  unfold featureStep
  exact glyphWalk_extends (fun t => t) _ _
    (fun j s => alternatesStep_extends_below o _ _ _ j s) g t

theorem languageStep_extends_below (o : Subsystem) (g : GLYPHSET) (script : Nat)
    (LangTags : Nat → Nat) (LangTag : Nat) (t : List Call) :
    Extends belowLanguage t (languageStep o g script LangTags LangTag t) := by
  unfold languageStep
  have h1 : Extends belowLanguage t
      (t ++ [Call.ScriptGetFontFeatureTags script (LangTags LangTag)]) :=
    Extends.append _ _ (by simp [belowLanguage])
  dsimp only
  split
  · refine h1.trans (forLoop_extends (fun t => t) _ _ (fun j s => ?_) _ _ _)
    refine (featureStep_extends_below o g _ _ _ j s).mono ?_
    intro c hc
    cases c <;> simp_all [belowFeature, belowLanguage]
  · exact h1

theorem alternatesStep_queries (o : Subsystem) (script lang feature j : Nat) (t : List Call) :
    alternateQueries (alternatesStep o script lang feature j t)
      = alternateQueries t ++ [(script, lang, feature, j % 65536)] := by
  rw [alternatesStep_eq]
  unfold alternateQueries
  rw [List.filterMap_append, List.filterMap_cons]
  have : List.filterMap (fun c => match c with
      | Call.ScriptGetFontAlternateGlyphs script lang feature glyph =>
        some (script, lang, feature, glyph)
      | _ => none)
      (if (o (t ++ [Call.ScriptGetFontAlternateGlyphs script lang feature (j % 65536)])).ret
          = 0 then
        (List.range' 1
          ((o (t ++ [Call.ScriptGetFontAlternateGlyphs script lang feature
            (j % 65536)])).count.toNat - 1)).map
          (fun a => Call.ScriptSubstituteSingleGlyph script lang feature a (j % 65536))
      else []) = [] := by
    split
    · rw [List.filterMap_eq_nil_iff]
      intro c hc
      obtain ⟨a, _, rfl⟩ := List.mem_map.1 hc
      rfl
    · rfl
  rw [this]

theorem featureStep_queries (o : Subsystem) (g : GLYPHSET) (script lang : Nat)
    (FeatureTags : Nat → Nat) (FeatureTag : Nat) (t : List Call) :
    alternateQueries (featureStep o g script lang FeatureTags FeatureTag t)
      = alternateQueries t ++
          (coveragePoints g).map
            (fun j => (script, lang, FeatureTags FeatureTag, j % 65536)) := by
  unfold featureStep
  rw [glyphWalk_eq_foldl]
  have h := foldl_filterMap (fun c => match c with
      | Call.ScriptGetFontAlternateGlyphs script lang feature glyph =>
        some (script, lang, feature, glyph)
      | _ => none)
    (alternatesStep o script lang (FeatureTags FeatureTag))
    (fun j => [(script, lang, FeatureTags FeatureTag, j % 65536)])
    (fun j t => alternatesStep_queries o script lang (FeatureTags FeatureTag) j t)
    (coveragePoints g) t
  unfold alternateQueries
  rw [h]
  congr 1
  induction coveragePoints g with
  | nil => rfl
  | cons a l ih => simp [List.flatMap_cons, ih]

theorem alternatesStep_block (o : Subsystem) (script lang feature j : Nat) (t : List Call) :
    alternatesStep o script lang feature j t
      = t ++ Call.ScriptGetFontAlternateGlyphs script lang feature (j % 65536) ::
          substitutionsFor
            (o (t ++ [Call.ScriptGetFontAlternateGlyphs script lang feature (j % 65536)]))
            script lang feature (j % 65536) := by
  rw [alternatesStep_eq]
  rfl

theorem foldl_take_succ {σ : Type} (f : σ → Nat → σ) (l : List Nat) (k : Nat)
    (hk : k < l.length) (s : σ) :
    (l.take (k + 1)).foldl f s = f ((l.take k).foldl f s) (l.getD k 0) := by
  rw [List.take_succ, List.foldl_append]
  simp [List.getD_eq_getElem?_getD, List.getElem?_eq_getElem hk]

theorem languageStep_featureQueries (o : Subsystem) (g : GLYPHSET) (script : Nat)
    (LangTags : Nat → Nat) (LangTag : Nat) (t : List Call) :
    featureQueries (languageStep o g script LangTags LangTag t)
      = featureQueries t ++ [(script, LangTags LangTag)] := by
  unfold languageStep
  dsimp only
  have h0 : featureQueries (t ++ [Call.ScriptGetFontFeatureTags script (LangTags LangTag)])
      = featureQueries t ++ [(script, LangTags LangTag)] := by
    simp [featureQueries, List.filterMap_append]
  split
  · rw [← h0]
    refine Extends.filterMap_eq _ ?_
      (forLoop_extends (fun t => t) belowFeature _
        (fun j s => featureStep_extends_below o g _ _ _ j s) _ _ _)
    intro c hc
    cases c <;> simp_all [belowFeature]
  · exact h0

theorem languageStep_alternateQueries (o : Subsystem) (g : GLYPHSET) (script : Nat)
    (LangTags : Nat → Nat) (LangTag : Nat) (t : List Call)
    (hok : (o (t ++ [Call.ScriptGetFontFeatureTags script (LangTags LangTag)])).ret = 0) :
    alternateQueries (languageStep o g script LangTags LangTag t)
      = alternateQueries t ++
          (List.range
            (o (t ++ [Call.ScriptGetFontFeatureTags script (LangTags LangTag)])).count.toNat).flatMap
            (fun f => (coveragePoints g).map (fun j =>
              (script, LangTags LangTag,
                (o (t ++ [Call.ScriptGetFontFeatureTags script (LangTags LangTag)])).tags f,
                j % 65536))) := by
  unfold languageStep
  dsimp only
  rw [if_pos hok]
  have h := forLoop_filterMap (fun c => match c with
      | Call.ScriptGetFontAlternateGlyphs script lang feature glyph =>
        some (script, lang, feature, glyph)
      | _ => none)
    (featureStep o g script (LangTags LangTag)
      (o (t ++ [Call.ScriptGetFontFeatureTags script (LangTags LangTag)])).tags)
    (fun f => (coveragePoints g).map (fun j =>
      (script, LangTags LangTag,
        (o (t ++ [Call.ScriptGetFontFeatureTags script (LangTags LangTag)])).tags f,
        j % 65536)))
    (fun j t1 => featureStep_queries o g script (LangTags LangTag) _ j t1)
    (o (t ++ [Call.ScriptGetFontFeatureTags script (LangTags LangTag)])).count.toNat
    (t ++ [Call.ScriptGetFontFeatureTags script (LangTags LangTag)])
  unfold alternateQueries
  rw [h]
  simp [List.filterMap_append]

theorem scriptStep_languageQueries (o : Subsystem) (g : GLYPHSET) (ScriptTags : Nat → Nat)
    (ScriptTag : Nat) (t : List Call) :
    languageQueries (scriptStep o g ScriptTags ScriptTag t)
      = languageQueries t ++ [ScriptTags ScriptTag] := by
  unfold scriptStep
  dsimp only
  have h0 : languageQueries (t ++ [Call.ScriptGetFontLanguageTags (ScriptTags ScriptTag)])
      = languageQueries t ++ [ScriptTags ScriptTag] := by
    simp [languageQueries, List.filterMap_append]
  split
  · rw [← h0]
    refine Extends.filterMap_eq _ ?_
      (forLoop_extends (fun t => t) belowLanguage _
        (fun j s => languageStep_extends_below o g _ _ j s) _ _ _)
    intro c hc
    cases c <;> simp_all [belowLanguage]
  · exact h0

theorem scriptStep_failure (o : Subsystem) (g : GLYPHSET) (ScriptTags : Nat → Nat)
    (ScriptTag : Nat) (t : List Call)
    (hfail : (o (t ++ [Call.ScriptGetFontLanguageTags (ScriptTags ScriptTag)])).ret ≠ 0) :
    scriptStep o g ScriptTags ScriptTag t
      = t ++ [Call.ScriptGetFontLanguageTags (ScriptTags ScriptTag)] := by
  unfold scriptStep
  dsimp only
  rw [if_neg hfail]

theorem scriptStep_success (o : Subsystem) (g : GLYPHSET) (ScriptTags : Nat → Nat)
    (ScriptTag : Nat) (t : List Call)
    (hok : (o (t ++ [Call.ScriptGetFontLanguageTags (ScriptTags ScriptTag)])).ret = 0) :
    ∃ sub, scriptStep o g ScriptTags ScriptTag t
        = t ++ Call.ScriptGetFontLanguageTags (ScriptTags ScriptTag) :: sub ∧
      (∀ c ∈ sub, belowLanguage c) ∧
      featureQueries sub
        = (List.range
            (o (t ++ [Call.ScriptGetFontLanguageTags (ScriptTags ScriptTag)])).count.toNat).map
            (fun i => (ScriptTags ScriptTag,
              (o (t ++ [Call.ScriptGetFontLanguageTags (ScriptTags ScriptTag)])).tags i)) := by
  unfold scriptStep
  dsimp only
  rw [if_pos hok]
  obtain ⟨sub, hsub, hbelow⟩ := forLoop_extends (fun t => t) belowLanguage
    (languageStep o g (ScriptTags ScriptTag)
      (o (t ++ [Call.ScriptGetFontLanguageTags (ScriptTags ScriptTag)])).tags)
    (fun j s => languageStep_extends_below o g _ _ j s) 0
    (o (t ++ [Call.ScriptGetFontLanguageTags (ScriptTags ScriptTag)])).count.toNat
    (t ++ [Call.ScriptGetFontLanguageTags (ScriptTags ScriptTag)])
  refine ⟨sub, by rw [hsub]; simp, hbelow, ?_⟩
  have h := forLoop_filterMap (fun c => match c with
      | Call.ScriptGetFontFeatureTags script lang => some (script, lang)
      | _ => none)
    (languageStep o g (ScriptTags ScriptTag)
      (o (t ++ [Call.ScriptGetFontLanguageTags (ScriptTags ScriptTag)])).tags)
    (fun i => [(ScriptTags ScriptTag,
      (o (t ++ [Call.ScriptGetFontLanguageTags (ScriptTags ScriptTag)])).tags i)])
    (fun j t1 => languageStep_featureQueries o g _ _ j t1)
    (o (t ++ [Call.ScriptGetFontLanguageTags (ScriptTags ScriptTag)])).count.toNat
    (t ++ [Call.ScriptGetFontLanguageTags (ScriptTags ScriptTag)])
  rw [hsub, List.filterMap_append] at h
  have h2 := List.append_cancel_left h
  unfold featureQueries
  rw [h2]
  generalize List.range _ = l
  induction l with
  | nil => rfl
  | cons a l ih => simp [List.flatMap_cons, ih]

/-! ### Whole runs -/

theorem clearStale_mono (o : Subsystem) :
    ∀ (fuel : Nat) (t r : List Call), clearStale o fuel t = some r →
      ∀ k, clearStale o (fuel + k) t = some r := by
  intro fuel
  induction fuel with
  | zero => intro t r h; simp [clearStale] at h
  | succ n ih =>
    intro t r h k
    have e : n + 1 + k = (n + k) + 1 := by omega
    rw [e]
    unfold clearStale at h ⊢
    by_cases hc : (o (t ++ [Call.RemoveFontResourceW])).ret ≠ 0
    · rw [if_pos hc] at h ⊢
      exact ih _ _ h k
    · rw [if_neg hc] at h ⊢
      exact h

theorem clearStale_terminates (o : Subsystem) :
    ∀ (n : Nat) (t : List Call),
      (o (t ++ List.replicate (n + 1) Call.RemoveFontResourceW)).ret = 0 →
      ∃ r, clearStale o (n + 1) t = some r := by
  intro n
  induction n with
  | zero =>
    intro t h
    unfold clearStale
    have h1 : (o (t ++ [Call.RemoveFontResourceW])).ret = 0 := by simpa using h
    exact ⟨_, by rw [if_neg (by simpa using h1)]⟩
  | succ m ih =>
    intro t h
    unfold clearStale
    by_cases hc : (o (t ++ [Call.RemoveFontResourceW])).ret ≠ 0
    · rw [if_pos hc]
      apply ih
      have e : t ++ [Call.RemoveFontResourceW] ++ List.replicate (m + 1) Call.RemoveFontResourceW
          = t ++ List.replicate (m + 1 + 1) Call.RemoveFontResourceW := by
        rw [List.append_assoc]
        rfl
      rw [e]
      exact h
    · rw [if_neg hc]
      exact ⟨_, rfl⟩

theorem GetLogfonts_isSome (o : Subsystem) (fuel : Nat) (t r : List Call)
    (h : clearStale o fuel t = some r) : ∃ lr, GetLogfonts o fuel t = some lr := by
  unfold GetLogfonts
  rw [h]
  dsimp only
  split
  · exact ⟨_, rfl⟩
  · split
    · exact ⟨_, rfl⟩
    · split
      · exact ⟨_, rfl⟩
      · exact ⟨_, rfl⟩

theorem GetLogfonts_mono (o : Subsystem) (fuel : Nat) (t : List Call) (lr : LogfontsResult)
    (h : GetLogfonts o fuel t = some lr) (k : Nat) : GetLogfonts o (fuel + k) t = some lr := by
  unfold GetLogfonts at h ⊢
  cases hc : clearStale o fuel t with
  | none => rw [hc] at h; simp at h
  | some r =>
    rw [clearStale_mono o fuel t r hc k]
    rw [hc] at h
    exact h

theorem wmain_exit_zero (cfg : Config) (o : Subsystem) (rand : Nat → Nat) (fuel : Nat)
    (r : Outcome) (h : wmain cfg o rand 2 fuel = some r) : r.exitCode = 0 := by
  unfold wmain at h
  simp only [ne_eq, not_true_eq_false, if_false] at h
  cases hg : GetLogfonts o fuel [] with
  | none => rw [hg] at h; simp at h
  | some lr =>
    rw [hg] at h
    dsimp only at h
    split at h
    · split at h
      · cases h; rfl
      · cases h; rfl
    · cases h; rfl

theorem wmain_mono (cfg : Config) (o : Subsystem) (rand : Nat → Nat) (argc : Int) (fuel : Nat)
    (r : Outcome) (h : wmain cfg o rand argc fuel = some r) (k : Nat) :
    wmain cfg o rand argc (fuel + k) = some r := by
  unfold wmain at h ⊢
  by_cases ha : argc ≠ 2
  · rw [if_pos ha] at h ⊢
    exact h
  · rw [if_neg ha] at h ⊢
    cases hg : GetLogfonts o fuel [] with
    | none => rw [hg] at h; simp at h
    | some lr =>
      rw [GetLogfonts_mono o fuel [] lr hg k]
      rw [hg] at h
      exact h

theorem wmain_returns (cfg : Config) (o : Subsystem) (rand : Nat → Nat) (n : Nat)
    (hclear : (o (List.replicate (n + 1) Call.RemoveFontResourceW)).ret = 0) :
    ∃ r, wmain cfg o rand 2 (n + 1) = some r := by
  obtain ⟨t0, h0⟩ := clearStale_terminates o n [] (by simpa using hclear)
  obtain ⟨lr, hlr⟩ := GetLogfonts_isSome o (n + 1) [] t0 h0
  unfold wmain
  simp only [ne_eq, not_true_eq_false, if_false]
  rw [hlr]
  dsimp only
  split
  · split
    · exact ⟨_, rfl⟩
    · exact ⟨_, rfl⟩
  · exact ⟨_, rfl⟩

theorem noStageFailure_of_not (o : Subsystem) :
    ∀ (a h : List Call), (∀ c ∈ a, ¬ isStageQuery c) → noStageFailure o h a := by
  intro a
  induction a with
  | nil => intro h _; trivial
  | cons c rest ih =>
    intro h hc
    exact ⟨fun hq => absurd hq (hc c (by simp)), ih _ (fun x hx => hc x (by simp [hx]))⟩

theorem noStageFailure_append (o : Subsystem) :
    ∀ (a h b : List Call), noStageFailure o h a → noStageFailure o (h ++ a) b →
      noStageFailure o h (a ++ b) := by
  intro a
  induction a with
  | nil => intro h b _ hb; simpa using hb
  | cons c rest ih =>
    intro h b ha hb
    obtain ⟨h1, h2⟩ := ha
    refine ⟨h1, ih _ _ h2 ?_⟩
    simpa using hb

theorem stopsAtFailure_of_no (o : Subsystem) :
    ∀ (a h : List Call), noStageFailure o h a → stopsAtFailure o h a := by
  intro a
  induction a with
  | nil => intro h _; trivial
  | cons c rest ih =>
    intro h ha
    obtain ⟨h1, h2⟩ := ha
    exact ⟨fun hq h0 => absurd h0 (h1 hq), fun _ => ih _ h2⟩

theorem stopsAtFailure_append (o : Subsystem) :
    ∀ (a h b : List Call), noStageFailure o h a → stopsAtFailure o (h ++ a) b →
      stopsAtFailure o h (a ++ b) := by
  intro a
  induction a with
  | nil => intro h b _ hb; simpa using hb
  | cons c rest ih =>
    intro h b ha hb
    obtain ⟨h1, h2⟩ := ha
    refine ⟨fun hq h0 => absurd h0 (h1 hq), fun _ => ih _ _ h2 ?_⟩
    simpa using hb

theorem stopsAtFailure_fail (o : Subsystem) (h : List Call) (c : Call) (rest : List Call)
    (hq : isStageQuery c) (h0 : (o (h ++ [c])).ret = 0) (hrest : ∀ x ∈ rest, isCleanup x) :
    stopsAtFailure o h (c :: rest) :=
  ⟨fun _ _ => hrest, fun hne => absurd h0 (hne hq)⟩

theorem noStageFailure_single (o : Subsystem) (h : List Call) (c : Call)
    (h0 : (o (h ++ [c])).ret ≠ 0) : noStageFailure o h [c] :=
  ⟨fun _ => h0, trivial⟩

theorem optional_not_stage (cfg : Config) (c : Call) (h : optional cfg c) : ¬ isStageQuery c := by
  unfold optional isUniscribeCall at h
  cases c <;> simp_all [origin, isStageQuery]

theorem optional_enabled (cfg : Config) (c : Call) (h : optional cfg c) : enabled cfg c :=
  Or.inr (Or.inr h)

theorem optional_count (cfg : Config) (a : List Call) (h : ∀ c ∈ a, optional cfg c) :
    a.count (Call.GetFontUnicodeRanges false) = 0 := by
  rw [List.count_eq_zero]
  intro hmem
  have := h _ hmem
  unfold optional isUniscribeCall at this
  simp [origin] at this

theorem optionalKerning_extends (cfg : Config) (o : Subsystem) (t : List Call) :
    Extends (optional cfg) t (if cfg.HARNESS_TEST_KERNING_PAIRS then kerningPairs o t else t) := by
  cases hk : cfg.HARNESS_TEST_KERNING_PAIRS
  · exact Extends.refl _ _
  · exact (kerningPairs_extends o t).mono (fun c hc => Or.inl ⟨hk, hc⟩)

theorem wmainGlyphStep_optional (cfg : Config) (o : Subsystem) (j : Nat) (s : BatchState) :
    Extends (optional cfg) s.trace (wmainGlyphStep cfg o j s).trace := by
  unfold wmainGlyphStep
  dsimp only
  cases ho : cfg.HARNESS_TEST_GLYPH_OUTLINE <;> cases hd : cfg.HARNESS_TEST_DRAWTEXT
  · exact Extends.refl _ _
  · exact (drawStep_extends _ _ _).mono (fun c h => Or.inr (Or.inr (Or.inl ⟨hd, h⟩)))
  · exact (outlineFold_extends o j s.trace).mono (fun c h => Or.inr (Or.inl ⟨ho, h⟩))
  · exact ((outlineFold_extends o j s.trace).mono (fun c h => Or.inr (Or.inl ⟨ho, h⟩))).trans
      ((drawStep_extends _ _ _).mono (fun c h => Or.inr (Or.inr (Or.inl ⟨hd, h⟩))))

theorem wmainGlyphs_optional (cfg : Config) (o : Subsystem) (g : GLYPHSET) (t : List Call) :
    Extends (optional cfg) t (wmainGlyphs cfg o g t).trace := by
  unfold wmainGlyphs
  have h1 := glyphWalk_extends (fun s : BatchState => s.trace) _ _
    (fun j s => wmainGlyphStep_optional cfg o j s) g ⟨t, (o t).stack, 0, []⟩
  dsimp only at h1 ⊢
  split
  · rename_i hc
    have hd : cfg.HARNESS_TEST_DRAWTEXT = true := by
      simp only [Bool.and_eq_true] at hc
      exact hc.1
    refine h1.trans (Extends.append _ _ ?_)
    intro c hc
    rw [List.mem_singleton] at hc
    subst hc
    exact Or.inr (Or.inr (Or.inl ⟨hd, rfl⟩))
  · exact h1

theorem glyphsAndUniscribe_optional (cfg : Config) (o : Subsystem) (g : GLYPHSET)
    (t : List Call) :
    Extends (optional cfg) t
      (if cfg.HARNESS_TEST_UNISCRIBE then TestUniscribe cfg o g (wmainGlyphs cfg o g t).trace
        else (wmainGlyphs cfg o g t).trace) := by
  cases hu : cfg.HARNESS_TEST_UNISCRIBE
  · exact wmainGlyphs_optional cfg o g t
  · exact (wmainGlyphs_optional cfg o g t).trans
      ((TestUniscribe_extends cfg o g _).mono (fun c h => Or.inr (Or.inr (Or.inr ⟨hu, h⟩))))

theorem forLoopBreakAux_segment {σ : Type} (cfg : Config) (o : Subsystem)
    (proj : σ → List Call) (hi : Nat) (body : Nat → σ → σ × Bool)
    (hbody : ∀ j s, ∃ suf, proj (body j s).1 = proj s ++ suf ∧
      Segment cfg o (proj s) suf (body j s).2) :
    ∀ (fuel j : Nat) (s : σ), ∃ suf,
      proj (forLoopBreakAux hi body fuel j s).1 = proj s ++ suf ∧
      Segment cfg o (proj s) suf (forLoopBreakAux hi body fuel j s).2 := by
  intro fuel
  induction fuel with
  | zero =>
    intro j s
    exact ⟨[], by simp [forLoopBreakAux], trivial, fun _ => trivial, by simp⟩
  | succ n ih =>
    intro j s
    unfold forLoopBreakAux
    by_cases hj : j < hi
    · rw [if_pos hj]
      have hb1 := hbody j s
      rcases hb : body j s with ⟨s1, b⟩
      rw [hb] at hb1
      obtain ⟨suf1, e1, hstop1, hno1, hen1⟩ := hb1
      cases b
      · exact ⟨suf1, e1, hstop1, hno1, hen1⟩
      · dsimp only at e1 hno1 ⊢
        obtain ⟨suf2, e2, hstop2, hno2, hen2⟩ := ih (j + 1) s1
        rw [e1] at e2 hstop2 hno2
        refine ⟨suf1 ++ suf2, by rw [e2, List.append_assoc], ?_, ?_, ?_⟩
        · exact stopsAtFailure_append o _ _ _ (hno1 rfl) hstop2
        · intro hok
          exact noStageFailure_append o _ _ _ (hno1 rfl) (hno2 hok)
        · intro c hc
          rcases List.mem_append.1 hc with h | h
          · exact hen1 c h
          · exact hen2 c h
    · rw [if_neg hj]
      exact ⟨[], by simp, trivial, fun _ => trivial, by simp⟩

theorem forLoopBreak_segment {σ : Type} (cfg : Config) (o : Subsystem)
    (proj : σ → List Call) (body : Nat → σ → σ × Bool)
    (hbody : ∀ j s, ∃ suf, proj (body j s).1 = proj s ++ suf ∧
      Segment cfg o (proj s) suf (body j s).2) (lo hi : Nat) (s : σ) :
    ∃ suf, proj (forLoopBreak lo hi body s).1 = proj s ++ suf ∧
      Segment cfg o (proj s) suf (forLoopBreak lo hi body s).2 :=
  forLoopBreakAux_segment cfg o proj hi body hbody (hi - lo) lo s

theorem forLoopBreakAux_le {σ : Type} (m : σ → Nat) (b hi : Nat) (body : Nat → σ → σ × Bool)
    (hbody : ∀ j s, m (body j s).1 ≤ m s + b) :
    ∀ (fuel j : Nat) (s : σ), m (forLoopBreakAux hi body fuel j s).1 ≤ m s + fuel * b := by
  intro fuel
  induction fuel with
  | zero => intro j s; simp [forLoopBreakAux]
  | succ n ih =>
    intro j s
    unfold forLoopBreakAux
    by_cases hj : j < hi
    · rw [if_pos hj]
      have h1 := hbody j s
      rcases hb : body j s with ⟨s1, c⟩
      rw [hb] at h1
      dsimp only at h1
      cases c
      · dsimp only
        have : m s + b ≤ m s + (n + 1) * b := by
          rw [Nat.add_mul]; omega
        omega
      · dsimp only
        have h2 := ih (j + 1) s1
        have : m s + (n + 1) * b = m s + b + n * b := by
          rw [Nat.add_mul]; omega
        omega
    · rw [if_neg hj]
      dsimp only
      omega

theorem forLoopBreak_le {σ : Type} (m : σ → Nat) (b : Nat) (body : Nat → σ → σ × Bool)
    (hbody : ∀ j s, m (body j s).1 ≤ m s + b) (hi : Nat) (s : σ) :
    m (forLoopBreak 0 hi body s).1 ≤ m s + hi * b := by
  have := forLoopBreakAux_le m b hi body hbody (hi - 0) 0 s
  simpa [forLoopBreak] using this

theorem forLoopBreakAux_exact {σ : Type} (m : σ → Nat) (b hi : Nat)
    (body : Nat → σ → σ × Bool)
    (hbody : ∀ j s, (body j s).2 = true ∧ m (body j s).1 = m s + b) :
    ∀ (fuel j : Nat) (s : σ), fuel = hi - j →
      (forLoopBreakAux hi body fuel j s).2 = true ∧
      m (forLoopBreakAux hi body fuel j s).1 = m s + fuel * b := by
  intro fuel
  induction fuel with
  | zero => intro j s _; simp [forLoopBreakAux]
  | succ n ih =>
    intro j s hf
    unfold forLoopBreakAux
    have hj : j < hi := by omega
    rw [if_pos hj]
    obtain ⟨h1, h2⟩ := hbody j s
    rcases hb : body j s with ⟨s1, c⟩
    rw [hb] at h1 h2
    dsimp only at h1 h2
    subst h1
    dsimp only
    obtain ⟨h3, h4⟩ := ih (j + 1) s1 (by omega)
    refine ⟨h3, ?_⟩
    rw [h4, h2, Nat.add_mul]
    omega

theorem forLoopBreak_exact {σ : Type} (m : σ → Nat) (b : Nat) (body : Nat → σ → σ × Bool)
    (hbody : ∀ j s, (body j s).2 = true ∧ m (body j s).1 = m s + b) (hi : Nat) (s : σ) :
    (forLoopBreak 0 hi body s).2 = true ∧ m (forLoopBreak 0 hi body s).1 = m s + hi * b := by
  have := forLoopBreakAux_exact m b hi body hbody (hi - 0) 0 s rfl
  simpa [forLoopBreak] using this

/-- The four ways through the body of the variation loop. -/
theorem variationStep_cases (cfg : Config) (o : Subsystem) (rand : Nat → Nat)
    (lpLogfonts : Nat → LOGFONTW) (font_it variation_it : Nat) (s : RunState) :
    ∃ (lf : LOGFONTW) (pos : Nat) (hFont : Int) (k w t1 t4 t5 : List Call),
      t1 = s.trace ++ [Call.CreateFontIndirectW lf] ∧
      hFont = (o t1).ret ∧
      t4 = t1 ++ [Call.SelectFont hFont] ++ k ++ [Call.GetFontUnicodeRanges false] ∧
      t5 = t4 ++ [Call.HeapAlloc Buf.lpGlyphset, Call.GetFontUnicodeRanges true] ∧
      (∀ c ∈ k, optional cfg c) ∧ (∀ c ∈ w, optional cfg c) ∧
      ((hFont = 0 ∧
          variationStep cfg o rand lpLogfonts font_it variation_it s
            = (⟨t1 ++ [Call.DeleteFont hFont], pos⟩, false)) ∨
        (hFont ≠ 0 ∧ (o t4).ret = 0 ∧
          variationStep cfg o rand lpLogfonts font_it variation_it s
            = (⟨t4 ++ [Call.DeleteFont hFont], pos⟩, false)) ∨
        (hFont ≠ 0 ∧ (o t4).ret ≠ 0 ∧ (o t5).ret = 0 ∧
          variationStep cfg o rand lpLogfonts font_it variation_it s
            = (⟨t5 ++ [Call.HeapFree Buf.lpGlyphset, Call.DeleteFont hFont], pos⟩, false)) ∨
        (hFont ≠ 0 ∧ (o t4).ret ≠ 0 ∧ (o t5).ret ≠ 0 ∧
          variationStep cfg o rand lpLogfonts font_it variation_it s
            = (⟨t5 ++ w ++ [Call.HeapFree Buf.lpGlyphset, Call.DeleteFont hFont], pos⟩,
                true))) := by
  obtain ⟨k, hk, hkP⟩ := optionalKerning_extends cfg o
    (s.trace ++
      [Call.CreateFontIndirectW (variationConfig rand (lpLogfonts font_it) variation_it s.pos).1]
      ++ [Call.SelectFont (o (s.trace ++ [Call.CreateFontIndirectW
        (variationConfig rand (lpLogfonts font_it) variation_it s.pos).1])).ret])
  obtain ⟨w, hw, hwP⟩ := glyphsAndUniscribe_optional cfg o
    (o (s.trace ++
      [Call.CreateFontIndirectW (variationConfig rand (lpLogfonts font_it) variation_it s.pos).1]
      ++ [Call.SelectFont (o (s.trace ++ [Call.CreateFontIndirectW
        (variationConfig rand (lpLogfonts font_it) variation_it s.pos).1])).ret] ++ k ++
      [Call.GetFontUnicodeRanges false] ++
      [Call.HeapAlloc Buf.lpGlyphset, Call.GetFontUnicodeRanges true])).ranges
    (s.trace ++
      [Call.CreateFontIndirectW (variationConfig rand (lpLogfonts font_it) variation_it s.pos).1]
      ++ [Call.SelectFont (o (s.trace ++ [Call.CreateFontIndirectW
        (variationConfig rand (lpLogfonts font_it) variation_it s.pos).1])).ret] ++ k ++
      [Call.GetFontUnicodeRanges false] ++
      [Call.HeapAlloc Buf.lpGlyphset, Call.GetFontUnicodeRanges true])
  refine ⟨(variationConfig rand (lpLogfonts font_it) variation_it s.pos).1,
    (variationConfig rand (lpLogfonts font_it) variation_it s.pos).2, _, k, w, _, _, _,
    rfl, rfl, rfl, rfl, hkP, hwP, ?_⟩
  unfold variationStep
  dsimp only
  rw [hk]
  by_cases h1 : (o (s.trace ++ [Call.CreateFontIndirectW
      (variationConfig rand (lpLogfonts font_it) variation_it s.pos).1])).ret = 0
  · left
    rw [if_pos h1]
    exact ⟨h1, rfl⟩
  · right
    rw [if_neg h1]
    by_cases h2 : (o (s.trace ++ [Call.CreateFontIndirectW
        (variationConfig rand (lpLogfonts font_it) variation_it s.pos).1] ++
        [Call.SelectFont (o (s.trace ++ [Call.CreateFontIndirectW
          (variationConfig rand (lpLogfonts font_it) variation_it s.pos).1])).ret] ++ k ++
        [Call.GetFontUnicodeRanges false])).ret = 0
    · left
      rw [if_pos h2]
      exact ⟨h1, h2, rfl⟩
    · right
      rw [if_neg h2]
      by_cases h3 : (o (s.trace ++ [Call.CreateFontIndirectW
          (variationConfig rand (lpLogfonts font_it) variation_it s.pos).1] ++
          [Call.SelectFont (o (s.trace ++ [Call.CreateFontIndirectW
            (variationConfig rand (lpLogfonts font_it) variation_it s.pos).1])).ret] ++ k ++
          [Call.GetFontUnicodeRanges false] ++
          [Call.HeapAlloc Buf.lpGlyphset, Call.GetFontUnicodeRanges true])).ret = 0
      · left
        rw [if_pos h3]
        exact ⟨h1, h2, h3, rfl⟩
      · right
        rw [if_neg h3, hw]
        exact ⟨h1, h2, h3, rfl⟩

theorem noStageFailure_prefix (cfg : Config) (o : Subsystem) (h : List Call) (lf : LOGFONTW)
    (hFont : Int) (k : List Call) (hk : ∀ c ∈ k, optional cfg c)
    (h1 : (o (h ++ [Call.CreateFontIndirectW lf])).ret ≠ 0) :
    noStageFailure o h ([Call.CreateFontIndirectW lf, Call.SelectFont hFont] ++ k) := by
  refine noStageFailure_append o _ _ _ ⟨fun _ => h1, ⟨fun hq => absurd hq (by simp [isStageQuery]),
    trivial⟩⟩ ?_
  exact noStageFailure_of_not o _ _ (fun c hc => optional_not_stage cfg c (hk c hc))

theorem variationStep_segment (cfg : Config) (o : Subsystem) (rand : Nat → Nat)
    (lpLogfonts : Nat → LOGFONTW) (font_it variation_it : Nat) (s : RunState) :
    ∃ suf, (variationStep cfg o rand lpLogfonts font_it variation_it s).1.trace
        = s.trace ++ suf ∧
      Segment cfg o s.trace suf
        (variationStep cfg o rand lpLogfonts font_it variation_it s).2 := by
  obtain ⟨lf, pos, hFont, k, w, t1, t4, t5, e1, eh, e4, e5, hk, hw, hcases⟩ :=
    variationStep_cases cfg o rand lpLogfonts font_it variation_it s
  have enK : ∀ c ∈ k, enabled cfg c := fun c hc => optional_enabled cfg c (hk c hc)
  have enW : ∀ c ∈ w, enabled cfg c := fun c hc => optional_enabled cfg c (hw c hc)
  rcases hcases with ⟨h1, hs⟩ | ⟨h1, h2, hs⟩ | ⟨h1, h2, h3, hs⟩ | ⟨h1, h2, h3, hs⟩
  · -- the font could not be created
    rw [hs]
    refine ⟨[Call.CreateFontIndirectW lf, Call.DeleteFont hFont], by simp [e1], ?_, ?_, ?_⟩
    · refine stopsAtFailure_fail o _ _ _ (by simp [isStageQuery]) ?_ (by simp [isCleanup])
      rw [← e1, ← eh]; exact h1
    · intro hh; cases hh
    · intro c hc
      simp only [List.mem_cons, List.mem_singleton, List.not_mem_nil, or_false] at hc
      rcases hc with rfl | rfl <;> simp [enabled, origin]
  · -- the size query reported zero
    rw [hs]
    have hpre := noStageFailure_prefix cfg o s.trace lf hFont k hk (by rw [← e1, ← eh]; exact h1)
    refine ⟨([Call.CreateFontIndirectW lf, Call.SelectFont hFont] ++ k) ++
      (Call.GetFontUnicodeRanges false :: [Call.DeleteFont hFont]),
      by simp [e4, e1], ?_, ?_, ?_⟩
    · refine stopsAtFailure_append o _ _ _ hpre
        (stopsAtFailure_fail o _ _ _ (by simp [isStageQuery]) ?_ (by simp [isCleanup]))
      have : s.trace ++ ([Call.CreateFontIndirectW lf, Call.SelectFont hFont] ++ k) ++
          [Call.GetFontUnicodeRanges false] = t4 := by simp [e4, e1]
      rw [this]; exact h2
    · intro hh; cases hh
    · intro c hc
      simp only [List.mem_append, List.mem_cons, List.mem_singleton, List.not_mem_nil,
        or_false, or_assoc] at hc
      rcases hc with rfl | rfl | hc | rfl | rfl
      · simp [enabled, origin]
      · simp [enabled, origin]
      · exact enK c hc
      · simp [enabled, origin]
      · simp [enabled, origin]
  · -- the buffer could not be filled
    rw [hs]
    have hpre := noStageFailure_prefix cfg o s.trace lf hFont k hk (by rw [← e1, ← eh]; exact h1)
    have hpre2 : noStageFailure o s.trace
        (([Call.CreateFontIndirectW lf, Call.SelectFont hFont] ++ k) ++
          [Call.GetFontUnicodeRanges false, Call.HeapAlloc Buf.lpGlyphset]) := by
      refine noStageFailure_append o _ _ _ hpre ⟨fun _ => ?_,
        ⟨fun hq => absurd hq (by simp [isStageQuery]), trivial⟩⟩
      have : s.trace ++ ([Call.CreateFontIndirectW lf, Call.SelectFont hFont] ++ k) ++
          [Call.GetFontUnicodeRanges false] = t4 := by simp [e4, e1]
      rw [this]; exact h2
    refine ⟨(([Call.CreateFontIndirectW lf, Call.SelectFont hFont] ++ k) ++
        [Call.GetFontUnicodeRanges false, Call.HeapAlloc Buf.lpGlyphset]) ++
      (Call.GetFontUnicodeRanges true ::
        [Call.HeapFree Buf.lpGlyphset, Call.DeleteFont hFont]),
      by simp [e5, e4, e1], ?_, ?_, ?_⟩
    · refine stopsAtFailure_append o _ _ _ hpre2
        (stopsAtFailure_fail o _ _ _ (by simp [isStageQuery]) ?_ (by simp [isCleanup]))
      have : s.trace ++ (([Call.CreateFontIndirectW lf, Call.SelectFont hFont] ++ k) ++
          [Call.GetFontUnicodeRanges false, Call.HeapAlloc Buf.lpGlyphset]) ++
          [Call.GetFontUnicodeRanges true] = t5 := by simp [e5, e4, e1]
      rw [this]; exact h3
    · intro hh; cases hh
    · intro c hc
      simp only [List.mem_append, List.mem_cons, List.mem_singleton, List.not_mem_nil,
        or_false, or_assoc] at hc
      rcases hc with rfl | rfl | hc | rfl | rfl | rfl | rfl | rfl
      · simp [enabled, origin]
      · simp [enabled, origin]
      · exact enK c hc
      all_goals simp [enabled, origin]
  · -- the iteration completes
    rw [hs]
    have hpre := noStageFailure_prefix cfg o s.trace lf hFont k hk (by rw [← e1, ← eh]; exact h1)
    have hpre2 : noStageFailure o s.trace
        (([Call.CreateFontIndirectW lf, Call.SelectFont hFont] ++ k) ++
          [Call.GetFontUnicodeRanges false, Call.HeapAlloc Buf.lpGlyphset]) := by
      refine noStageFailure_append o _ _ _ hpre ⟨fun _ => ?_,
        ⟨fun hq => absurd hq (by simp [isStageQuery]), trivial⟩⟩
      have : s.trace ++ ([Call.CreateFontIndirectW lf, Call.SelectFont hFont] ++ k) ++
          [Call.GetFontUnicodeRanges false] = t4 := by simp [e4, e1]
      rw [this]; exact h2
    have hpre3 : noStageFailure o s.trace
        ((([Call.CreateFontIndirectW lf, Call.SelectFont hFont] ++ k) ++
          [Call.GetFontUnicodeRanges false, Call.HeapAlloc Buf.lpGlyphset]) ++
          ([Call.GetFontUnicodeRanges true] ++
            (w ++ [Call.HeapFree Buf.lpGlyphset, Call.DeleteFont hFont]))) := by
      refine noStageFailure_append o _ _ _ hpre2 ?_
      refine noStageFailure_append o _ _ _ ⟨fun _ => ?_, trivial⟩ ?_
      · have : s.trace ++ (([Call.CreateFontIndirectW lf, Call.SelectFont hFont] ++ k) ++
            [Call.GetFontUnicodeRanges false, Call.HeapAlloc Buf.lpGlyphset]) ++
            [Call.GetFontUnicodeRanges true] = t5 := by simp [e5, e4, e1]
        rw [this]; exact h3
      · refine noStageFailure_of_not o _ _ ?_
        intro c hc
        simp only [List.mem_append, List.mem_cons, List.mem_singleton, List.not_mem_nil,
          or_false, or_assoc] at hc
        rcases hc with hc | rfl | rfl
        · exact optional_not_stage cfg c (hw c hc)
        · simp [isStageQuery]
        · simp [isStageQuery]
    refine ⟨_, ?_, stopsAtFailure_of_no o _ _ hpre3, fun _ => hpre3, ?_⟩
    · simp [e5, e4, e1]
    · intro c hc
      simp only [List.mem_append, List.mem_cons, List.mem_singleton, List.not_mem_nil,
        or_false, or_assoc] at hc
      rcases hc with rfl | rfl | hc | rfl | rfl | rfl | hc | rfl | rfl
      · simp [enabled, origin]
      · simp [enabled, origin]
      · exact enK c hc
      · simp [enabled, origin]
      · simp [enabled, origin]
      · simp [enabled, origin]
      · exact enW c hc
      · simp [enabled, origin]
      · simp [enabled, origin]

theorem variationStep_attempts (cfg : Config) (o : Subsystem) (rand : Nat → Nat)
    (lpLogfonts : Nat → LOGFONTW) (font_it variation_it : Nat) (s : RunState) :
    coverageAttempts (variationStep cfg o rand lpLogfonts font_it variation_it s).1.trace
        ≤ coverageAttempts s.trace + 1 ∧
      ((∀ (h : List Call) (c : Call), isStageQuery c → (o (h ++ [c])).ret ≠ 0) →
        (variationStep cfg o rand lpLogfonts font_it variation_it s).2 = true ∧
        coverageAttempts (variationStep cfg o rand lpLogfonts font_it variation_it s).1.trace
          = coverageAttempts s.trace + 1) := by
  obtain ⟨lf, pos, hFont, k, w, t1, t4, t5, e1, eh, e4, e5, hk, hw, hcases⟩ :=
    variationStep_cases cfg o rand lpLogfonts font_it variation_it s
  have ck := optional_count cfg k hk
  have cw := optional_count cfg w hw
  rcases hcases with ⟨h1, hs⟩ | ⟨h1, h2, hs⟩ | ⟨h1, h2, h3, hs⟩ | ⟨h1, h2, h3, hs⟩
  · rw [hs]
    refine ⟨by simp [coverageAttempts, e1, List.count_append], ?_⟩
    intro hgood
    exact absurd (by rw [← e1, ← eh]; exact h1)
      (hgood s.trace (Call.CreateFontIndirectW lf) (by simp [isStageQuery]))
  · rw [hs]
    refine ⟨by simp [coverageAttempts, e4, e1, List.count_append, ck], ?_⟩
    intro hgood
    exact absurd (by rw [e4] at h2; exact h2)
      (hgood _ (Call.GetFontUnicodeRanges false) (by simp [isStageQuery]))
  · rw [hs]
    refine ⟨by simp [coverageAttempts, e5, e4, e1, List.count_append, ck], ?_⟩
    intro hgood
    have e : t5 = (t4 ++ [Call.HeapAlloc Buf.lpGlyphset]) ++ [Call.GetFontUnicodeRanges true] := by
      simp [e5]
    exact absurd (by rw [e] at h3; exact h3)
      (hgood _ (Call.GetFontUnicodeRanges true) (by simp [isStageQuery]))
  · rw [hs]
    have hc : coverageAttempts
        (t5 ++ w ++ [Call.HeapFree Buf.lpGlyphset, Call.DeleteFont hFont])
        = coverageAttempts s.trace + 1 := by
      simp [coverageAttempts, e5, e4, e1, List.count_append, ck, cw]
    exact ⟨by dsimp only; omega, fun _ => ⟨rfl, hc⟩⟩

theorem fontLoops_segment (cfg : Config) (o : Subsystem) (rand : Nat → Nat)
    (lpLogfonts : Nat → LOGFONTW) (dwFonts : Nat) (s : RunState) :
    ∃ suf, (fontLoops cfg o rand lpLogfonts dwFonts s).1.trace = s.trace ++ suf ∧
      Segment cfg o s.trace suf (fontLoops cfg o rand lpLogfonts dwFonts s).2 := by
  unfold fontLoops
  apply forLoopBreak_segment cfg o (fun s : RunState => s.trace)
  intro font_it s1
  apply forLoopBreak_segment cfg o (fun s : RunState => s.trace)
  intro variation_it s2
  exact variationStep_segment cfg o rand lpLogfonts font_it variation_it s2

theorem fontLoops_attempts_le (cfg : Config) (o : Subsystem) (rand : Nat → Nat)
    (lpLogfonts : Nat → LOGFONTW) (dwFonts : Nat) (s : RunState) :
    coverageAttempts (fontLoops cfg o rand lpLogfonts dwFonts s).1.trace
      ≤ coverageAttempts s.trace + dwFonts * cfg.FONT_VARIATION_COUNT := by
  unfold fontLoops
  have h := forLoopBreak_le (fun s : RunState => coverageAttempts s.trace)
    (cfg.FONT_VARIATION_COUNT * 1)
    (fun font_it s1 =>
      forLoopBreak 0 cfg.FONT_VARIATION_COUNT (variationStep cfg o rand lpLogfonts font_it) s1)
    (fun font_it s1 => forLoopBreak_le (fun s : RunState => coverageAttempts s.trace) 1
      (variationStep cfg o rand lpLogfonts font_it)
      (fun v s2 => (variationStep_attempts cfg o rand lpLogfonts font_it v s2).1) _ s1)
    dwFonts s
  simpa using h

theorem fontLoops_attempts_exact (cfg : Config) (o : Subsystem) (rand : Nat → Nat)
    (lpLogfonts : Nat → LOGFONTW) (dwFonts : Nat) (s : RunState)
    (hgood : ∀ (h : List Call) (c : Call), isStageQuery c → (o (h ++ [c])).ret ≠ 0) :
    (fontLoops cfg o rand lpLogfonts dwFonts s).2 = true ∧
      coverageAttempts (fontLoops cfg o rand lpLogfonts dwFonts s).1.trace
        = coverageAttempts s.trace + dwFonts * cfg.FONT_VARIATION_COUNT := by
  unfold fontLoops
  have h := forLoopBreak_exact (fun s : RunState => coverageAttempts s.trace)
    (cfg.FONT_VARIATION_COUNT * 1)
    (fun font_it s1 =>
      forLoopBreak 0 cfg.FONT_VARIATION_COUNT (variationStep cfg o rand lpLogfonts font_it) s1)
    (fun font_it s1 => forLoopBreak_exact (fun s : RunState => coverageAttempts s.trace) 1
      (variationStep cfg o rand lpLogfonts font_it)
      (fun v s2 => (variationStep_attempts cfg o rand lpLogfonts font_it v s2).2 hgood) _ s1)
    dwFonts s
  simpa using h

theorem clearStale_extends (o : Subsystem) :
    ∀ (fuel : Nat) (t r : List Call), clearStale o fuel t = some r →
      Extends (fun c => c = Call.RemoveFontResourceW) t r := by
  intro fuel
  induction fuel with
  | zero => intro t r h; simp [clearStale] at h
  | succ n ih =>
    intro t r h
    unfold clearStale at h
    have h1 : Extends (fun c => c = Call.RemoveFontResourceW) t
        (t ++ [Call.RemoveFontResourceW]) := Extends.append _ _ (by simp)
    by_cases hc : (o (t ++ [Call.RemoveFontResourceW])).ret ≠ 0
    · rw [if_pos hc] at h
      exact h1.trans (ih _ _ h)
    · rw [if_neg hc] at h
      cases h
      exact h1

theorem GetLogfonts_extends (o : Subsystem) (fuel : Nat) (t : List Call) (lr : LogfontsResult)
    (h : GetLogfonts o fuel t = some lr) :
    Extends (fun c => origin c = Origin.registration) t lr.trace := by
  unfold GetLogfonts at h
  cases hc : clearStale o fuel t with
  | none => rw [hc] at h; simp at h
  | some t0 =>
    rw [hc] at h
    have h0 : Extends (fun c => origin c = Origin.registration) t t0 :=
      (clearStale_extends o fuel t t0 hc).mono (fun c e => by rw [e]; rfl)
    dsimp only at h
    split at h
    · cases h
      exact h0.trans (Extends.append _ _ (by simp [origin]))
    · split at h
      · cases h
        exact h0.trans ((Extends.append _ _ (by simp [origin])).trans
          ((Extends.append _ _ (by simp [origin])).trans
            (Extends.append _ _ (by simp [origin]))))
      · split at h
        · cases h
          exact h0.trans ((Extends.append _ _ (by simp [origin])).trans
            ((Extends.append _ _ (by simp [origin])).trans
              ((Extends.append _ _ (by simp [origin])).trans
                (Extends.append _ _ (by simp [origin])))))
        · cases h
          exact h0.trans ((Extends.append _ _ (by simp [origin])).trans
            ((Extends.append _ _ (by simp [origin])).trans
              ((Extends.append _ _ (by simp [origin])).trans
                (Extends.append _ _ (by simp [origin])))))

/-- The shape of a run that returns with argument count 2. -/
theorem wmain_trace (cfg : Config) (o : Subsystem) (rand : Nat → Nat) (fuel : Nat)
    (r : Outcome) (h : wmain cfg o rand 2 fuel = some r) :
    ∃ lr, GetLogfonts o fuel [] = some lr ∧
      ((lr.ok = false ∧ r.trace = lr.trace) ∨
        (lr.ok = true ∧ ¬ 0 < (o (lr.trace ++ [Call.AddFontResourceW])).ret ∧
          r.trace = lr.trace ++ [Call.AddFontResourceW]) ∨
        (lr.ok = true ∧ 0 < (o (lr.trace ++ [Call.AddFontResourceW])).ret ∧
          r.trace
            = (fontLoops cfg o rand lr.lpLogfonts lr.dwFonts
                ⟨lr.trace ++ [Call.AddFontResourceW] ++ [Call.GetDC, Call.SetGraphicsMode],
                  0⟩).1.trace ++ [Call.ReleaseDC, Call.RemoveFontResourceW])) := by
  unfold wmain at h
  simp only [ne_eq, not_true_eq_false, if_false] at h
  cases hg : GetLogfonts o fuel [] with
  | none => rw [hg] at h; simp at h
  | some lr =>
    rw [hg] at h
    refine ⟨lr, rfl, ?_⟩
    dsimp only at h
    cases hok : lr.ok
    · rw [hok] at h
      simp only [Bool.false_eq_true, if_false] at h
      cases h
      exact Or.inl ⟨rfl, rfl⟩
    · rw [hok] at h
      simp only [if_true] at h
      right
      by_cases hadd : 0 < (o (lr.trace ++ [Call.AddFontResourceW])).ret
      · rw [if_pos hadd] at h
        cases h
        exact Or.inr ⟨rfl, hadd, rfl⟩
      · rw [if_neg hadd] at h
        cases h
        exact Or.inl ⟨rfl, hadd, rfl⟩

theorem wmain_calls (cfg : Config) (o : Subsystem) (rand : Nat → Nat) (fuel : Nat)
    (r : Outcome) (h : wmain cfg o rand 2 fuel = some r) : ∀ c ∈ r.trace, runCall cfg c := by
  obtain ⟨lr, hlr, hcases⟩ := wmain_trace cfg o rand fuel r h
  obtain ⟨pre, hpre, hP⟩ := GetLogfonts_extends o fuel [] lr hlr
  rw [List.nil_append] at hpre
  have hreg : ∀ c ∈ lr.trace, runCall cfg c := by
    intro c hc
    rw [hpre] at hc
    exact Or.inl (hP c hc)
  rcases hcases with ⟨_, e⟩ | ⟨_, _, e⟩ | ⟨_, _, e⟩
  · rw [e]; exact hreg
  · rw [e]
    intro c hc
    rcases List.mem_append.1 hc with h1 | h1
    · exact hreg c h1
    · rw [List.mem_singleton] at h1
      subst h1
      exact Or.inl rfl
  · obtain ⟨suf, hsuf, _, _, hen⟩ := fontLoops_segment cfg o rand lr.lpLogfonts lr.dwFonts
      ⟨lr.trace ++ [Call.AddFontResourceW] ++ [Call.GetDC, Call.SetGraphicsMode], 0⟩
    rw [e, hsuf]
    intro c hc
    simp only [List.mem_append, List.mem_cons, List.mem_singleton, List.not_mem_nil,
      or_false, or_assoc] at hc
    rcases hc with h1 | rfl | rfl | rfl | h1 | rfl | rfl
    · exact hreg c h1
    · exact Or.inl rfl
    · exact Or.inr (Or.inl rfl)
    · exact Or.inr (Or.inl rfl)
    · exact Or.inr (Or.inr (hen c h1))
    · exact Or.inr (Or.inl rfl)
    · exact Or.inl rfl

theorem wmain_attempts_le (cfg : Config) (o : Subsystem) (rand : Nat → Nat) (fuel : Nat)
    (r : Outcome) (h : wmain cfg o rand 2 fuel = some r) :
    ∃ lr, GetLogfonts o fuel [] = some lr ∧
      coverageAttempts r.trace ≤ lr.dwFonts * cfg.FONT_VARIATION_COUNT := by
  obtain ⟨lr, hlr, hcases⟩ := wmain_trace cfg o rand fuel r h
  refine ⟨lr, hlr, ?_⟩
  have hreg : coverageAttempts lr.trace = 0 := by
    have := (GetLogfonts_extends o fuel [] lr hlr).count_eq (Call.GetFontUnicodeRanges false)
      (by intro c hc e; rw [e] at hc; simp [origin] at hc)
    simpa [coverageAttempts] using this
  rcases hcases with ⟨_, e⟩ | ⟨_, _, e⟩ | ⟨_, _, e⟩
  · rw [e, hreg]; omega
  · rw [e]
    simp only [coverageAttempts, List.count_append] at hreg ⊢
    simp [hreg]
  · have := fontLoops_attempts_le cfg o rand lr.lpLogfonts lr.dwFonts
      ⟨lr.trace ++ [Call.AddFontResourceW] ++ [Call.GetDC, Call.SetGraphicsMode], 0⟩
    rw [e]
    simp only [coverageAttempts, List.count_append] at hreg this ⊢
    simp [hreg] at this ⊢
    exact this

theorem uniscribeBatches_stores_length (C : Nat) (o : Subsystem) (g : GLYPHSET)
    (t : List Call) :
    (uniscribeBatches C o g t).stores.length = (coveragePoints g).length := by
  have h : ∀ (pts : List Nat) (s : BatchState),
      (pts.foldl (fun s1 j => uniscribeGlyphStep C j s1) s).stores.length
        = s.stores.length + pts.length := by
    intro pts
    induction pts with
    | nil => intro s; simp
    | cons j js ih =>
      intro s
      rw [List.foldl_cons, ih]
      have : (uniscribeGlyphStep C j s).stores.length = s.stores.length + 1 := by
        unfold uniscribeGlyphStep
        dsimp only
        split <;> simp
      rw [this, List.length_cons]
      omega
  unfold uniscribeBatches
  dsimp only
  rw [glyphWalk_eq_foldl]
  split
  · rw [h]; simp
  · rw [h]; simp

theorem GetLogfonts_ok_counts (o : Subsystem) (fuel : Nat) (lr : LogfontsResult)
    (h : GetLogfonts o fuel [] = some lr) (hok : lr.ok = true) :
    lr.trace.count (Call.HeapAlloc Buf.lpLogfonts) = 1 ∧
      lr.trace.count (Call.HeapFree Buf.lpLogfonts) = 0 := by
  unfold GetLogfonts at h
  cases hc : clearStale o fuel [] with
  | none => rw [hc] at h; simp at h
  | some t0 =>
    rw [hc] at h
    have h0 := clearStale_extends o fuel [] t0 hc
    have ca : t0.count (Call.HeapAlloc Buf.lpLogfonts) = 0 := by
      have := h0.count_eq (Call.HeapAlloc Buf.lpLogfonts) (by intro c e; rw [e]; simp)
      simpa using this
    have cf : t0.count (Call.HeapFree Buf.lpLogfonts) = 0 := by
      have := h0.count_eq (Call.HeapFree Buf.lpLogfonts) (by intro c e; rw [e]; simp)
      simpa using this
    dsimp only at h
    split at h
    · cases h; cases hok
    · split at h
      · cases h; cases hok
      · split at h
        · cases h; cases hok
        · cases h
          simp [List.count_append, ca, cf]

/-- Every run that gets past `GetLogfonts` returns with the descriptor array
allocated once and never freed. -/
theorem wmain_never_frees_descriptors (cfg : Config) (o : Subsystem) (rand : Nat → Nat)
    (fuel : Nat) (r : Outcome) (lr : LogfontsResult)
    (h : wmain cfg o rand 2 fuel = some r) (hlr : GetLogfonts o fuel [] = some lr)
    (hok : lr.ok = true) :
    r.trace.count (Call.HeapAlloc Buf.lpLogfonts) = 1 ∧
      r.trace.count (Call.HeapFree Buf.lpLogfonts) = 0 := by
  obtain ⟨lr1, hlr1, hcases⟩ := wmain_trace cfg o rand fuel r h
  rw [hlr] at hlr1
  cases hlr1
  obtain ⟨ca, cf⟩ := GetLogfonts_ok_counts o fuel lr hlr hok
  rcases hcases with ⟨e, _⟩ | ⟨_, _, e⟩ | ⟨_, _, e⟩
  · rw [hok] at e; cases e
  · rw [e]
    simp [List.count_append, ca, cf]
  · obtain ⟨suf, hsuf, _, _, hen⟩ := fontLoops_segment cfg o rand lr.lpLogfonts lr.dwFonts
      ⟨lr.trace ++ [Call.AddFontResourceW] ++ [Call.GetDC, Call.SetGraphicsMode], 0⟩
    have hnot : ∀ c ∈ suf, origin c ≠ Origin.registration := by
      intro c hc
      have := hen c hc
      unfold enabled optional isUniscribeCall at this
      intro e1
      rw [e1] at this
      simp at this
    have sa : suf.count (Call.HeapAlloc Buf.lpLogfonts) = 0 := by
      rw [List.count_eq_zero]
      intro hm
      exact hnot _ hm rfl
    have sf : suf.count (Call.HeapFree Buf.lpLogfonts) = 0 := by
      rw [List.count_eq_zero]
      intro hm
      exact hnot _ hm rfl
    rw [e, hsuf]
    dsimp only
    simp [List.count_append, ca, cf, sa, sf]

/-! ### The bare configuration and the one-glyph scenario -/

theorem bare_calls (cfg : Config) (hk : cfg.HARNESS_TEST_KERNING_PAIRS = false)
    (ho : cfg.HARNESS_TEST_GLYPH_OUTLINE = false) (hd : cfg.HARNESS_TEST_DRAWTEXT = false)
    (hu : cfg.HARNESS_TEST_UNISCRIBE = false) (c : Call) (h : runCall cfg c) :
    origin c = Origin.registration ∨ origin c = Origin.context ∨ origin c = Origin.font ∨
      origin c = Origin.coverage := by
  unfold runCall enabled optional at h
  rw [hk, ho, hd, hu] at h
  simpa using h

theorem scenario_never_fails (h : List Call) (c : Call) (hq : isStageQuery c) :
    (scenarioSubsystem (h ++ [c])).ret ≠ 0 := by
  cases c <;> simp [isStageQuery] at hq <;> simp [scenarioSubsystem, List.getLast?_append]
  rename_i fill
  cases fill <;> simp

theorem scenario_GetLogfonts :
    ∃ lp, GetLogfonts scenarioSubsystem 1 []
      = some ⟨true, [Call.RemoveFontResourceW, Call.AddFontResourceW,
          Call.HeapAlloc Buf.lpLogfonts, Call.GetFontResourceInfoW,
          Call.RemoveFontResourceW], 1, lp⟩ :=
  ⟨_, rfl⟩

/-! ### The layout enumeration as nested blocks -/

theorem forLoop_blocks (body : Nat → List Call → List Call)
    (P : Nat → List Call → List Call → Prop) (n : Nat)
    (hbody : ∀ k h, k < n → P k h (body k h)) (s : List Call) :
    Blocks n s (forLoop 0 n body s) P :=
  ⟨fun k => forLoop 0 k body s, by simp [forLoop, forLoopAux], rfl,
    fun k hk => by
      show P k (forLoop 0 k body s) (forLoop 0 (k + 1) body s)
      rw [forLoop_zero_succ]
      exact hbody k _ hk⟩

theorem glyphWalk_blocks (g : GLYPHSET) (body : Nat → List Call → List Call)
    (P : Nat → List Call → List Call → Prop)
    (hbody : ∀ k h, k < (coveragePoints g).length →
      P k h (body ((coveragePoints g).getD k 0) h)) (s : List Call) :
    Blocks (coveragePoints g).length s (glyphWalk g body s) P := by
  refine ⟨fun k => ((coveragePoints g).take k).foldl (fun t1 j => body j t1) s, by simp, ?_, ?_⟩
  · rw [glyphWalk_eq_foldl]
    dsimp only
    rw [List.take_length]
  · intro k hk
    dsimp only
    rw [foldl_take_succ _ _ k hk]
    exact hbody k _ hk

theorem featureStep_block (o : Subsystem) (g : GLYPHSET) (script lang : Nat)
    (FeatureTags : Nat → Nat) (FeatureTag : Nat) (h : List Call) :
    featureBlock o g script lang (FeatureTags FeatureTag) h
      (featureStep o g script lang FeatureTags FeatureTag h) := by
  unfold featureBlock featureStep
  apply glyphWalk_blocks
  intro k u _
  exact alternatesStep_block o script lang (FeatureTags FeatureTag) _ u

theorem languageStep_block (o : Subsystem) (g : GLYPHSET) (script : Nat)
    (LangTags : Nat → Nat) (LangTag : Nat) (h : List Call) :
    languageBlock o g script (LangTags LangTag) h
      (languageStep o g script LangTags LangTag h) := by
  unfold languageBlock languageStep
  dsimp only
  refine ⟨fun hfail => by rw [if_neg hfail], fun hok => ?_⟩
  rw [if_pos hok]
  apply forLoop_blocks
  intro f u _
  exact featureStep_block o g script (LangTags LangTag) _ f u

theorem scriptStep_block (o : Subsystem) (g : GLYPHSET) (ScriptTags : Nat → Nat)
    (ScriptTag : Nat) (h : List Call) :
    scriptBlock o g (ScriptTags ScriptTag) h (scriptStep o g ScriptTags ScriptTag h) := by
  unfold scriptBlock scriptStep
  dsimp only
  refine ⟨fun hfail => by rw [if_neg hfail], fun hok => ?_⟩
  rw [if_pos hok]
  apply forLoop_blocks
  intro i u _
  exact languageStep_block o g (ScriptTags ScriptTag) _ i u

theorem layoutSurface_blocks (o : Subsystem) (g : GLYPHSET) (t : List Call)
    (hscripts : (o (scriptEnumeration t)).ret = 0) :
    Blocks (o (scriptEnumeration t)).count.toNat (scriptEnumeration t) (layoutSurface o g t)
      (fun k h h1 => scriptBlock o g ((o (scriptEnumeration t)).tags k) h h1) := by
  have hdef : layoutSurface o g t
      = forLoop 0 (o (scriptEnumeration t)).count.toNat
          (scriptStep o g (o (scriptEnumeration t)).tags) (scriptEnumeration t) := by
    unfold layoutSurface scriptEnumeration
    dsimp only
    unfold scriptEnumeration at hscripts
    rw [if_pos hscripts]
  rw [hdef]
  apply forLoop_blocks
  intro k h _
  exact scriptStep_block o g _ k h

theorem languageStep_outcome (o : Subsystem) (g : GLYPHSET) (script : Nat)
    (LangTags : Nat → Nat) (LangTag : Nat) (h : List Call) :
    ((o (h ++ [Call.ScriptGetFontFeatureTags script (LangTags LangTag)])).ret ≠ 0 →
        languageStep o g script LangTags LangTag h
          = h ++ [Call.ScriptGetFontFeatureTags script (LangTags LangTag)]) ∧
      ((o (h ++ [Call.ScriptGetFontFeatureTags script (LangTags LangTag)])).ret = 0 →
        ∃ sub, languageStep o g script LangTags LangTag h
            = h ++ Call.ScriptGetFontFeatureTags script (LangTags LangTag) :: sub ∧
          (∀ c ∈ sub, belowFeature c) ∧
          alternateQueries sub
            = (List.range
                (o (h ++ [Call.ScriptGetFontFeatureTags script
                  (LangTags LangTag)])).count.toNat).flatMap
                (fun f => (coveragePoints g).map (fun j =>
                  (script, LangTags LangTag,
                    (o (h ++ [Call.ScriptGetFontFeatureTags script (LangTags LangTag)])).tags f,
                    j % 65536)))) := by
  refine ⟨fun hfail => ?_, fun hok => ?_⟩
  · unfold languageStep
    dsimp only
    rw [if_neg hfail]
  · have hq := languageStep_alternateQueries o g script LangTags LangTag h hok
    obtain ⟨sub, hsub, hbelow⟩ : Extends belowFeature
        (h ++ [Call.ScriptGetFontFeatureTags script (LangTags LangTag)])
        (languageStep o g script LangTags LangTag h) := by
      unfold languageStep
      dsimp only
      rw [if_pos hok]
      exact forLoop_extends (fun t => t) belowFeature _
        (fun j s => featureStep_extends_below o g _ _ _ j s) _ _ _
    refine ⟨sub, by rw [hsub]; simp, hbelow, ?_⟩
    rw [hsub] at hq
    unfold alternateQueries at hq ⊢
    rw [List.filterMap_append, List.filterMap_append] at hq
    simp only [List.filterMap_cons, List.filterMap_nil, List.append_nil] at hq
    exact List.append_cancel_left hq


theorem scriptStep_languages (o : Subsystem) (g : GLYPHSET) (ScriptTags : Nat → Nat)
    (ScriptTag : Nat) (t : List Call)
    (hok : (o (t ++ [Call.ScriptGetFontLanguageTags (ScriptTags ScriptTag)])).ret = 0) :
    Blocks (o (t ++ [Call.ScriptGetFontLanguageTags (ScriptTags ScriptTag)])).count.toNat
      (t ++ [Call.ScriptGetFontLanguageTags (ScriptTags ScriptTag)])
      (scriptStep o g ScriptTags ScriptTag t)
      (fun i u u1 =>
        ((o (u ++ [Call.ScriptGetFontFeatureTags (ScriptTags ScriptTag)
            ((o (t ++ [Call.ScriptGetFontLanguageTags (ScriptTags ScriptTag)])).tags i)])).ret
            ≠ 0 →
          u1 = u ++ [Call.ScriptGetFontFeatureTags (ScriptTags ScriptTag)
            ((o (t ++ [Call.ScriptGetFontLanguageTags (ScriptTags ScriptTag)])).tags i)]) ∧
        ((o (u ++ [Call.ScriptGetFontFeatureTags (ScriptTags ScriptTag)
            ((o (t ++ [Call.ScriptGetFontLanguageTags (ScriptTags ScriptTag)])).tags i)])).ret
            = 0 →
          ∃ sub, u1 = u ++ Call.ScriptGetFontFeatureTags (ScriptTags ScriptTag)
              ((o (t ++ [Call.ScriptGetFontLanguageTags (ScriptTags ScriptTag)])).tags i) ::
                sub ∧
            (∀ c ∈ sub, belowFeature c) ∧
            alternateQueries sub
              = (List.range
                  (o (u ++ [Call.ScriptGetFontFeatureTags (ScriptTags ScriptTag)
                    ((o (t ++ [Call.ScriptGetFontLanguageTags
                      (ScriptTags ScriptTag)])).tags i)])).count.toNat).flatMap
                  (fun f => (coveragePoints g).map (fun j =>
                    (ScriptTags ScriptTag,
                      (o (t ++ [Call.ScriptGetFontLanguageTags (ScriptTags ScriptTag)])).tags i,
                      (o (u ++ [Call.ScriptGetFontFeatureTags (ScriptTags ScriptTag)
                        ((o (t ++ [Call.ScriptGetFontLanguageTags
                          (ScriptTags ScriptTag)])).tags i)])).tags f,
                      j % 65536))))) := by
  unfold scriptStep
  dsimp only
  rw [if_pos hok]
  apply forLoop_blocks
  intro i u _
  exact languageStep_outcome o g (ScriptTags ScriptTag) _ i u

/-! ## The claims -/

/-- C1 (as stated) fails.  For the coverage range `[65535, 65537)` the code
point 65536 is stored through the cast `(WCHAR)j`, so `ScriptGetCMap` receives
the characters 65535 and 0: not a rearrangement of the coverage set.  For the
coverage range `[0, 2)` the buffer handed to `DrawTextW` begins with `L'\0'`,
so the string drawn is empty. -/
theorem C1_counterexample :
    (cmapRuns (TestUniscribe fullConfig zeroSubsystem wrappingCoverage [])).flatten
        = [65535, 0] ∧
      coveragePoints wrappingCoverage = [65535, 65536] ∧
      ¬ ((cmapRuns (TestUniscribe fullConfig zeroSubsystem wrappingCoverage [])).flatten).Perm
          (coveragePoints wrappingCoverage) ∧
      (drawRuns (wmainGlyphs fullConfig zeroSubsystem nulCoverage []).trace).flatten = [] ∧
      coveragePoints nulCoverage = [0, 1] := by
  refine ⟨by decide, by decide, by decide, by decide, by decide⟩

/-- C1 (amended). Batch correctness.  For every coverage set, every batch
capacity and every subsystem, the runs handed to `ScriptGetCMap` by
`TestUniscribe`, concatenated, are the code points of the coverage set in
order, each reduced to 16 bits; when every code point is below 65536 they are
the coverage set exactly.  When drawing is compiled in, the capacity is at
least 1 and every code point is a non-zero 16-bit character, the strings handed
to `DrawTextW` by the glyph loop of `wmain` (the last, shorter one included),
concatenated, are the coverage set exactly.  Nothing is dropped or repeated,
whatever the capacity. -/
theorem C1_batch_correctness (cfg : Config) (o : Subsystem) (g : GLYPHSET) (t : List Call) :
    (cmapRuns (TestUniscribe cfg o g t)).flatten
        = (cmapRuns t).flatten ++ (coveragePoints g).map (fun j => j % 65536) ∧
      ((∀ j ∈ coveragePoints g, j < 65536) →
        (cmapRuns (TestUniscribe cfg o g t)).flatten
          = (cmapRuns t).flatten ++ coveragePoints g) ∧
      (cfg.HARNESS_TEST_DRAWTEXT = true → 0 < cfg.DISPLAYED_GLYPHS_COUNT →
        (∀ j ∈ coveragePoints g, 0 < j ∧ j < 65536) →
        (drawRuns (wmainGlyphs cfg o g t).trace).flatten
          = (drawRuns t).flatten ++ coveragePoints g) := by
  refine ⟨TestUniscribe_flushed cfg o g t, ?_, ?_⟩
  · intro h
    rw [TestUniscribe_flushed, map_mod_of_lt _ h]
  · intro hdraw hC h
    rw [wmainGlyphs_drawn cfg o g t hdraw hC, map_mod_of_lt _ (fun j hj => (h j hj).2)]
    intro j hj
    have := h j hj
    rw [Nat.mod_eq_of_lt this.2]
    omega

/-- Witness for C1: the two-range coverage `[65, 71)`, `[97, 100)` with batches
of 4 glyphs. -/
theorem C1_batch_correctness_witness :
    (cmapRuns (TestUniscribe fullConfig zeroSubsystem latinCoverage [])).flatten
        = coveragePoints latinCoverage ∧
      (drawRuns (wmainGlyphs fullConfig zeroSubsystem latinCoverage []).trace).flatten
        = coveragePoints latinCoverage := by
  have h := C1_batch_correctness fullConfig zeroSubsystem latinCoverage []
  refine ⟨?_, ?_⟩
  · simpa [cmapRuns] using h.2.1 (by decide)
  · simpa [drawRuns] using h.2.2 rfl (by decide) (by decide)

/-- C2 (as stated) fails.  For the coverage range `[65535, 65537)` the
per-glyph metrics queries of `TestUniscribe` are issued for the glyphs 65535
and 0, while the code points of the range are 65535 and 65536. -/
theorem C2_counterexample :
    metricsQueries (TestUniscribe fullConfig zeroSubsystem wrappingCoverage []) = [65535, 0] ∧
      coveragePoints wrappingCoverage = [65535, 65536] ∧
      metricsQueries (TestUniscribe fullConfig zeroSubsystem wrappingCoverage [])
        ≠ coveragePoints wrappingCoverage := by
  refine ⟨by decide, by decide, by decide⟩

/-- C2 (amended). Coverage completeness.  Each glyph walk runs its body once
for every code point of every range `[wcLow, wcLow + cGlyphs)`, ranges in
order, values ascending: for any body, the loop nest is the left fold of the
body over the code points of the coverage set.  The per-glyph metrics queries
of `TestUniscribe` are that sequence with every code point reduced to 16 bits,
hence exactly that sequence when every code point is below 65536; and when
outlines are compiled in, the size queries of `wmain` for each outline format
are exactly that sequence. -/
theorem C2_coverage_completeness (cfg : Config) (o : Subsystem) (g : GLYPHSET)
    (t : List Call) :
    (∀ (σ : Type) (body : Nat → σ → σ) (s : σ),
        glyphWalk g body s = (coveragePoints g).foldl (fun s1 j => body j s1) s) ∧
      metricsQueries (TestUniscribe cfg o g t)
        = metricsQueries t ++ (coveragePoints g).map (fun j => j % 65536) ∧
      ((∀ j ∈ coveragePoints g, j < 65536) →
        metricsQueries (TestUniscribe cfg o g t) = metricsQueries t ++ coveragePoints g) ∧
      (cfg.HARNESS_TEST_GLYPH_OUTLINE = true → ∀ f ∈ glyph_formats,
        outlineQueries f (wmainGlyphs cfg o g t).trace
          = outlineQueries f t ++ coveragePoints g) := by
  refine ⟨fun σ body s => glyphWalk_eq_foldl g body s, TestUniscribe_metrics cfg o g t, ?_, ?_⟩
  · intro h
    rw [TestUniscribe_metrics, map_mod_of_lt _ h]
  · intro hout f hf
    exact wmainGlyphs_outline cfg o g t hout f hf

/-- Witness for C2: the two-range coverage `[65, 71)`, `[97, 100)`. -/
theorem C2_coverage_completeness_witness :
    metricsQueries (TestUniscribe fullConfig zeroSubsystem latinCoverage [])
        = coveragePoints latinCoverage ∧
      outlineQueries 3 (wmainGlyphs fullConfig zeroSubsystem latinCoverage []).trace
        = coveragePoints latinCoverage := by
  have h := C2_coverage_completeness fullConfig zeroSubsystem latinCoverage []
  refine ⟨?_, ?_⟩
  · simpa [metricsQueries] using h.2.2.1 (by decide)
  · simpa [outlineQueries] using h.2.2.2 rfl 3 (by decide)

/-- C3 (as stated) fails.  A font file with two descriptors, two variations per
descriptor, and a subsystem whose coverage size query reports zero: the first
iteration sets `success = FALSE` and leaves the variation loop, the font loop
stops on `success`, and the run ends after one attempt of the
coverage-enumeration stage instead of four. -/
theorem C3_counterexample :
    (GetLogfonts noCoverageSubsystem 1 []).map (fun lr => lr.dwFonts) = some 2 ∧
      bareConfig.FONT_VARIATION_COUNT = 2 ∧
      (wmain bareConfig noCoverageSubsystem countingDraws 2 1).map
          (fun r => coverageAttempts r.trace) = some 1 ∧
      (wmain bareConfig noCoverageSubsystem countingDraws 2 1).map (fun r => r.trace)
        = some [Call.RemoveFontResourceW, Call.AddFontResourceW,
            Call.HeapAlloc Buf.lpLogfonts, Call.GetFontResourceInfoW,
            Call.RemoveFontResourceW, Call.AddFontResourceW, Call.GetDC, Call.SetGraphicsMode,
            Call.CreateFontIndirectW default, Call.SelectFont 1,
            Call.GetFontUnicodeRanges false, Call.DeleteFont 1,
            Call.ReleaseDC, Call.RemoveFontResourceW] := by
  refine ⟨by decide, by decide, by decide, by decide⟩

/-- C3 (amended). For `N` descriptors and variation count `V` the font and
variation loops attempt the coverage-enumeration stage at most `N * V` times,
and exactly `N * V` times (ending with `success` still set) when no font
creation and no coverage query is answered by failure.  A failed font creation,
a zero coverage size or a failed coverage fill ends both loops: the calls that
follow it are releases only, so no later variation or descriptor is attempted.
A whole run that returns attempts the stage at most `dwFonts * V` times. -/
theorem C3_run_controller (cfg : Config) (o : Subsystem) (rand : Nat → Nat) :
    (∀ (lpLogfonts : Nat → LOGFONTW) (N : Nat) (s : RunState),
        coverageAttempts (fontLoops cfg o rand lpLogfonts N s).1.trace
          ≤ coverageAttempts s.trace + N * cfg.FONT_VARIATION_COUNT) ∧
      (∀ (lpLogfonts : Nat → LOGFONTW) (N : Nat) (s : RunState),
        (∀ (h : List Call) (c : Call), isStageQuery c → (o (h ++ [c])).ret ≠ 0) →
        (fontLoops cfg o rand lpLogfonts N s).2 = true ∧
        coverageAttempts (fontLoops cfg o rand lpLogfonts N s).1.trace
          = coverageAttempts s.trace + N * cfg.FONT_VARIATION_COUNT) ∧
      (∀ (lpLogfonts : Nat → LOGFONTW) (N : Nat) (s : RunState),
        ∃ suf, (fontLoops cfg o rand lpLogfonts N s).1.trace = s.trace ++ suf ∧
          stopsAtFailure o s.trace suf ∧
          ((fontLoops cfg o rand lpLogfonts N s).2 = true → noStageFailure o s.trace suf)) ∧
      (∀ (fuel : Nat) (r : Outcome), wmain cfg o rand 2 fuel = some r →
        ∃ lr, GetLogfonts o fuel [] = some lr ∧
          coverageAttempts r.trace ≤ lr.dwFonts * cfg.FONT_VARIATION_COUNT) := by
  refine ⟨fun lp N s => fontLoops_attempts_le cfg o rand lp N s,
    fun lp N s hgood => fontLoops_attempts_exact cfg o rand lp N s hgood, ?_,
    fun fuel r h => wmain_attempts_le cfg o rand fuel r h⟩
  intro lp N s
  obtain ⟨suf, e, hstop, hno, _⟩ := fontLoops_segment cfg o rand lp N s
  exact ⟨suf, e, hstop, hno⟩

/-- Witness for C3: against a subsystem that creates every font and answers
every coverage query, 3 descriptors with 2 variations each reach the coverage
stage 6 times. -/
theorem C3_run_controller_witness :
    (∀ (h : List Call) (c : Call), isStageQuery c → (scenarioSubsystem (h ++ [c])).ret ≠ 0) ∧
      coverageAttempts
          (fontLoops fullConfig scenarioSubsystem countingDraws (fun _ => default) 3
            ⟨[], 0⟩).1.trace = 0 + 3 * fullConfig.FONT_VARIATION_COUNT := by
  have hgood : ∀ (h : List Call) (c : Call), isStageQuery c →
      (scenarioSubsystem (h ++ [c])).ret ≠ 0 := by
    intro h c hq
    cases c <;> simp [isStageQuery] at hq <;>
      simp [scenarioSubsystem, List.getLast?_append]
    rename_i fill
    cases fill <;> simp
  exact ⟨hgood,
    ((C3_run_controller fullConfig scenarioSubsystem countingDraws).2.1 (fun _ => default) 3
      ⟨[], 0⟩ hgood).2⟩

/-- C4. Variation Generator: for every descriptor `d` and every stream of
non-negative draws, variation 0 is `d` itself (and consumes no draw); for every
index `i ≥ 1` the configuration agrees with `d` on every field other than
height, weight, italic, underline, strikeout and quality, its height lies in
`[-40, 39]`, its weight is one of `0, 100, ..., 900`, each of the three style
flags is `0` or `1`, and its quality is at most `5`. -/
theorem C4_variation_generator (rand : Nat → Nat) (d : LOGFONTW) (pos : Nat) :
    variationConfig rand d 0 pos = (d, pos) ∧
    ∀ i : Nat, 1 ≤ i →
      (variationConfig rand d i pos).1.lfWidth = d.lfWidth ∧
      (variationConfig rand d i pos).1.lfEscapement = d.lfEscapement ∧
      (variationConfig rand d i pos).1.lfOrientation = d.lfOrientation ∧
      (variationConfig rand d i pos).1.lfCharSet = d.lfCharSet ∧
      (variationConfig rand d i pos).1.lfOutPrecision = d.lfOutPrecision ∧
      (variationConfig rand d i pos).1.lfClipPrecision = d.lfClipPrecision ∧
      (variationConfig rand d i pos).1.lfPitchAndFamily = d.lfPitchAndFamily ∧
      (variationConfig rand d i pos).1.lfFaceName = d.lfFaceName ∧
      (-40 ≤ (variationConfig rand d i pos).1.lfHeight ∧
        (variationConfig rand d i pos).1.lfHeight ≤ 39) ∧
      (∃ k : Nat, k ≤ 9 ∧ (variationConfig rand d i pos).1.lfWeight = 100 * (k : Int)) ∧
      ((variationConfig rand d i pos).1.lfItalic = 0 ∨
        (variationConfig rand d i pos).1.lfItalic = 1) ∧
      ((variationConfig rand d i pos).1.lfUnderline = 0 ∨
        (variationConfig rand d i pos).1.lfUnderline = 1) ∧
      ((variationConfig rand d i pos).1.lfStrikeOut = 0 ∨
        (variationConfig rand d i pos).1.lfStrikeOut = 1) ∧
      (variationConfig rand d i pos).1.lfQuality ≤ 5 := by
  refine ⟨by simp [variationConfig], ?_⟩
  intro i hi
  have hne : i ≠ 0 := by omega
  unfold variationConfig
  rw [if_neg hne]
  dsimp only
  refine ⟨rfl, rfl, rfl, rfl, rfl, rfl, rfl, rfl, ⟨?_, ?_⟩, ⟨rand (pos + 1) % 10, ?_, ?_⟩,
    ?_, ?_, ?_, ?_⟩
  · have := Nat.mod_lt (rand pos) (show 0 < 80 by decide); omega
  · have := Nat.mod_lt (rand pos) (show 0 < 80 by decide); omega
  · have := Nat.mod_lt (rand (pos + 1)) (show 0 < 10 by decide); omega
  · ring
  · rw [Nat.and_one_is_mod]; omega
  · rw [Nat.and_one_is_mod]; omega
  · rw [Nat.and_one_is_mod]; omega
  · have := Nat.mod_lt (rand (pos + 5)) (show 0 < 6 by decide); omega

/-- Witness for C4: variation 3 of the default descriptor, drawn from the
stream 0, 1, 2, ... -/
theorem C4_variation_generator_witness :
    (1 : Nat) ≤ 3 ∧
      variationConfig countingDraws default 0 0 = (default, 0) ∧
      (-40 ≤ (variationConfig countingDraws default 3 0).1.lfHeight ∧
        (variationConfig countingDraws default 3 0).1.lfHeight ≤ 39) ∧
      (variationConfig countingDraws default 3 0).1.lfQuality ≤ 5 :=
  ⟨by decide, (C4_variation_generator countingDraws default 0).1,
    ((C4_variation_generator countingDraws default 0).2 3 (by decide)).2.2.2.2.2.2.2.2.1,
    ((C4_variation_generator countingDraws default 0).2 3
      (by decide)).2.2.2.2.2.2.2.2.2.2.2.2.2⟩

/-- C5. Nesting containment.  When the script enumeration succeeds and returns
the tags `tags 0, ..., tags (n-1)`, the calls of the layout enumeration are a
sequence of `n` blocks, one per script tag in order (`T k` is the history after
the first `k` blocks).  Block `k` starts with the language-tag query for
`tags k`.  If that query fails the block is that query alone: only the subtree
of this script is skipped.  If it succeeds, the rest of the block consists of
feature, alternate and substitution calls only, its feature-tag queries are
exactly one per language tag returned, in order, and it is itself a sequence of
blocks, one per language tag: the feature-tag query for (script, language),
alone when it fails, and when it succeeds followed by alternate and
substitution calls only whose alternate-glyph queries are exactly one per
feature tag returned and covered code point, in order.  Hence the language-tag
queries of the whole enumeration are `tags 0, ..., tags (n-1)` whatever the
subsystem answers.  Down to the substitutions, the enumeration is the nesting
of script, language, feature and glyph blocks of `scriptBlock`: what is issued
for one script depends on the answers beneath that script only. -/
theorem C5_nesting_containment (o : Subsystem) (g : GLYPHSET) (t : List Call)
    (hscripts : (o (scriptEnumeration t)).ret = 0) :
    (∃ T : Nat → List Call,
      T 0 = scriptEnumeration t ∧
      layoutSurface o g t = T (o (scriptEnumeration t)).count.toNat ∧
      ∀ k, k < (o (scriptEnumeration t)).count.toNat →
        ((o (T k ++ [Call.ScriptGetFontLanguageTags ((o (scriptEnumeration t)).tags k)])).ret
            ≠ 0 →
          T (k + 1)
            = T k ++ [Call.ScriptGetFontLanguageTags ((o (scriptEnumeration t)).tags k)]) ∧
        ((o (T k ++ [Call.ScriptGetFontLanguageTags ((o (scriptEnumeration t)).tags k)])).ret
            = 0 →
          (∃ sub,
            T (k + 1)
              = T k ++
                Call.ScriptGetFontLanguageTags ((o (scriptEnumeration t)).tags k) :: sub ∧
            (∀ c ∈ sub, belowLanguage c) ∧
            featureQueries sub
              = (List.range
                  (o (T k ++ [Call.ScriptGetFontLanguageTags
                    ((o (scriptEnumeration t)).tags k)])).count.toNat).map
                  (fun i => ((o (scriptEnumeration t)).tags k,
                    (o (T k ++ [Call.ScriptGetFontLanguageTags
                      ((o (scriptEnumeration t)).tags k)])).tags i))) ∧
          Blocks
            (o (T k ++ [Call.ScriptGetFontLanguageTags
              ((o (scriptEnumeration t)).tags k)])).count.toNat
            (T k ++ [Call.ScriptGetFontLanguageTags ((o (scriptEnumeration t)).tags k)])
            (T (k + 1))
            (fun i u u1 =>
              ((o (u ++ [Call.ScriptGetFontFeatureTags ((o (scriptEnumeration t)).tags k)
                  ((o (T k ++ [Call.ScriptGetFontLanguageTags
                    ((o (scriptEnumeration t)).tags k)])).tags i)])).ret ≠ 0 →
                u1 = u ++ [Call.ScriptGetFontFeatureTags ((o (scriptEnumeration t)).tags k)
                  ((o (T k ++ [Call.ScriptGetFontLanguageTags
                    ((o (scriptEnumeration t)).tags k)])).tags i)]) ∧
              ((o (u ++ [Call.ScriptGetFontFeatureTags ((o (scriptEnumeration t)).tags k)
                  ((o (T k ++ [Call.ScriptGetFontLanguageTags
                    ((o (scriptEnumeration t)).tags k)])).tags i)])).ret = 0 →
                ∃ sub, u1 = u ++
                    Call.ScriptGetFontFeatureTags ((o (scriptEnumeration t)).tags k)
                      ((o (T k ++ [Call.ScriptGetFontLanguageTags
                        ((o (scriptEnumeration t)).tags k)])).tags i) :: sub ∧
                  (∀ c ∈ sub, belowFeature c) ∧
                  alternateQueries sub
                    = (List.range
                        (o (u ++ [Call.ScriptGetFontFeatureTags
                          ((o (scriptEnumeration t)).tags k)
                          ((o (T k ++ [Call.ScriptGetFontLanguageTags
                            ((o (scriptEnumeration t)).tags k)])).tags i)])).count.toNat).flatMap
                        (fun f => (coveragePoints g).map (fun j =>
                          ((o (scriptEnumeration t)).tags k,
                            (o (T k ++ [Call.ScriptGetFontLanguageTags
                              ((o (scriptEnumeration t)).tags k)])).tags i,
                            (o (u ++ [Call.ScriptGetFontFeatureTags
                              ((o (scriptEnumeration t)).tags k)
                              ((o (T k ++ [Call.ScriptGetFontLanguageTags
                                ((o (scriptEnumeration t)).tags k)])).tags i)])).tags f,
                            j % 65536))))))) ∧
      languageQueries (layoutSurface o g t)
        = languageQueries t ++
            (List.range (o (scriptEnumeration t)).count.toNat).map
              (o (scriptEnumeration t)).tags ∧
      (∀ (script : Nat) (LangTags : Nat → Nat) (LangTag : Nat) (h : List Call),
        (o (h ++ [Call.ScriptGetFontFeatureTags script (LangTags LangTag)])).ret = 0 →
        alternateQueries (languageStep o g script LangTags LangTag h)
          = alternateQueries h ++
              (List.range
                (o (h ++ [Call.ScriptGetFontFeatureTags script
                  (LangTags LangTag)])).count.toNat).flatMap
                (fun f => (coveragePoints g).map (fun j =>
                  (script, LangTags LangTag,
                    (o (h ++ [Call.ScriptGetFontFeatureTags script (LangTags LangTag)])).tags f,
                    j % 65536)))) ∧
      Blocks (o (scriptEnumeration t)).count.toNat (scriptEnumeration t) (layoutSurface o g t)
        (fun k h h1 => scriptBlock o g ((o (scriptEnumeration t)).tags k) h h1) := by
  have hdef : layoutSurface o g t
      = forLoop 0 (o (scriptEnumeration t)).count.toNat
          (scriptStep o g (o (scriptEnumeration t)).tags) (scriptEnumeration t) := by
    unfold layoutSurface scriptEnumeration
    dsimp only
    unfold scriptEnumeration at hscripts
    rw [if_pos hscripts]
  refine ⟨⟨fun k => forLoop 0 k (scriptStep o g (o (scriptEnumeration t)).tags)
      (scriptEnumeration t), ?_, hdef, ?_⟩, ?_, ?_, layoutSurface_blocks o g t hscripts⟩
  · simp [forLoop, forLoopAux]
  · intro k _
    dsimp only
    rw [forLoop_zero_succ]
    exact ⟨fun hfail => scriptStep_failure o g _ k _ hfail,
      fun hok => ⟨scriptStep_success o g _ k _ hok, scriptStep_languages o g _ k _ hok⟩⟩
  · rw [hdef]
    have h := forLoop_filterMap (fun c => match c with
        | Call.ScriptGetFontLanguageTags script => some script
        | _ => none)
      (scriptStep o g (o (scriptEnumeration t)).tags)
      (fun k => [(o (scriptEnumeration t)).tags k])
      (fun j t1 => scriptStep_languageQueries o g _ j t1)
      (o (scriptEnumeration t)).count.toNat (scriptEnumeration t)
    unfold languageQueries
    rw [h]
    have h0 : List.filterMap (fun c => match c with
        | Call.ScriptGetFontLanguageTags script => some script
        | _ => none) (scriptEnumeration t)
        = List.filterMap (fun c => match c with
        | Call.ScriptGetFontLanguageTags script => some script
        | _ => none) t := by
      simp [scriptEnumeration, List.filterMap_append]
    rw [h0]
    congr 1
    generalize List.range _ = l
    induction l with
    | nil => rfl
    | cons a l ih => simp [List.flatMap_cons, ih]
  · intro script LangTags LangTag h hok
    exact languageStep_alternateQueries o g script LangTags LangTag h hok

/-- Witness for C5: three scripts, the language enumeration of the second
fails; the language tags of all three are queried, and the feature and
alternate queries beneath the first and the third are all issued. -/
theorem C5_nesting_containment_witness :
    (shapingSubsystem (scriptEnumeration [])).ret = 0 ∧
      languageQueries (layoutSurface shapingSubsystem smallCoverage []) = [100, 101, 102] ∧
      featureQueries (layoutSurface shapingSubsystem smallCoverage [])
        = [(100, 200), (100, 201), (102, 200), (102, 201)] ∧
      alternateQueries (layoutSurface shapingSubsystem smallCoverage [])
        = [(100, 200, 300, 65), (100, 200, 300, 66), (100, 201, 300, 65),
            (100, 201, 300, 66), (102, 200, 300, 65), (102, 200, 300, 66),
            (102, 201, 300, 65), (102, 201, 300, 66)] ∧
      Blocks (shapingSubsystem (scriptEnumeration [])).count.toNat (scriptEnumeration [])
        (layoutSurface shapingSubsystem smallCoverage [])
        (fun k h h1 => scriptBlock shapingSubsystem smallCoverage
          ((shapingSubsystem (scriptEnumeration [])).tags k) h h1) := by
  refine ⟨by decide, ?_, by decide, by decide,
    (C5_nesting_containment shapingSubsystem smallCoverage [] (by decide)).2.2.2⟩
  have h := (C5_nesting_containment shapingSubsystem smallCoverage [] (by decide)).2.1
  rw [h]
  decide

/-- C6: the code at the failing inputs.  In a complete run over a font file
with one descriptor (every test compiled in) the descriptor array `lpLogfonts`
is allocated once and never freed, while every other block is freed as often as
it is allocated; and when no font can be created, `DeleteFont` is called once
with the `NULL` handle. -/
theorem C6_descriptor_array_never_freed :
    (wmain fullConfig scenarioSubsystem countingDraws 2 1).map
        (fun r => (r.exitCode, r.trace.count (Call.HeapAlloc Buf.lpLogfonts),
          r.trace.count (Call.HeapFree Buf.lpLogfonts),
          r.trace.count (Call.HeapAlloc Buf.lpGlyphset),
          r.trace.count (Call.HeapFree Buf.lpGlyphset)))
        = some (0, 1, 0, 2, 2) ∧
      (wmain fullConfig noFontSubsystem countingDraws 2 1).map
        (fun r => (r.trace.count (Call.DeleteFont 0),
          (r.trace.filter (fun c => match c with
            | Call.CreateFontIndirectW _ => true
            | _ => false)).length)) = some (1, 1) := by
  refine ⟨by decide, by decide⟩

/-- C8 (as stated) fails.  With outline, drawing, layout and kerning testing
compiled out, one descriptor and the coverage `[65, 66)`, the run exits with
code 0 after issuing no per-glyph metrics query at all: the metrics query
belongs to `TestUniscribe`, which is not called when layout testing is off. -/
theorem C8_counterexample :
    (wmain bareConfig scenarioSubsystem countingDraws 2 1).map
        (fun r => (r.exitCode, (metricsQueries r.trace).length)) = some (0, 0) ∧
      (wmain bareConfig scenarioSubsystem countingDraws 2 1).map
        (fun r => (metricsQueries r.trace).length) ≠ some 1 := by
  refine ⟨by decide, by decide⟩

/-- C8 (amended). With outline, drawing, layout and kerning testing compiled
out, the run over a font file with one descriptor whose coverage is the single
range `[65, 66)` returns with exit code 0, having reached the coverage stage
once per variation and issued no per-glyph metrics query, no outline query and
no Uniscribe call; and for every subsystem, a run that returns has exit code 0
and has issued none of these calls. -/
theorem C8_bare_scenario (cfg : Config) (rand : Nat → Nat)
    (hk : cfg.HARNESS_TEST_KERNING_PAIRS = false)
    (ho : cfg.HARNESS_TEST_GLYPH_OUTLINE = false)
    (hd : cfg.HARNESS_TEST_DRAWTEXT = false)
    (hu : cfg.HARNESS_TEST_UNISCRIBE = false) :
    (∃ r, (∀ fuel, 1 ≤ fuel → wmain cfg scenarioSubsystem rand 2 fuel = some r) ∧
        r.exitCode = 0 ∧
        coverageAttempts r.trace = cfg.FONT_VARIATION_COUNT ∧
        metricsQueries r.trace = [] ∧
        ∀ c ∈ r.trace, origin c ≠ Origin.outline ∧ origin c ≠ Origin.uniscribe ∧
          origin c ≠ Origin.shaping) ∧
      ∀ (o : Subsystem) (fuel : Nat) (r : Outcome), wmain cfg o rand 2 fuel = some r →
        r.exitCode = 0 ∧ metricsQueries r.trace = [] ∧
        ∀ c ∈ r.trace, origin c ≠ Origin.outline ∧ origin c ≠ Origin.uniscribe ∧
          origin c ≠ Origin.shaping := by
  have hgen : ∀ (o : Subsystem) (fuel : Nat) (r : Outcome),
      wmain cfg o rand 2 fuel = some r →
        r.exitCode = 0 ∧ metricsQueries r.trace = [] ∧
        ∀ c ∈ r.trace, origin c ≠ Origin.outline ∧ origin c ≠ Origin.uniscribe ∧
          origin c ≠ Origin.shaping := by
    intro o fuel r h
    have hcalls : ∀ c ∈ r.trace, origin c = Origin.registration ∨ origin c = Origin.context ∨
        origin c = Origin.font ∨ origin c = Origin.coverage :=
      fun c hc => bare_calls cfg hk ho hd hu c (wmain_calls cfg o rand fuel r h c hc)
    refine ⟨wmain_exit_zero cfg o rand fuel r h, ?_, ?_⟩
    · unfold metricsQueries
      rw [List.filterMap_eq_nil_iff]
      intro c hc
      have := hcalls c hc
      cases c <;> simp_all [origin]
    · intro c hc
      rcases hcalls c hc with e | e | e | e <;> simp [e]
  refine ⟨?_, hgen⟩
  obtain ⟨r, hr⟩ := wmain_returns cfg scenarioSubsystem rand 0 (by decide)
  have hp := hgen scenarioSubsystem _ r hr
  refine ⟨r, ?_, hp.1, ?_, hp.2.1, hp.2.2⟩
  · intro fuel hf
    obtain ⟨k, rfl⟩ : ∃ k, fuel = 0 + 1 + k := ⟨fuel - 1, by omega⟩
    exact wmain_mono cfg scenarioSubsystem rand 2 (0 + 1) r hr k
  · obtain ⟨lr, hlr, hcases⟩ := wmain_trace cfg scenarioSubsystem rand (0 + 1) r hr
    obtain ⟨lp, hlp⟩ := scenario_GetLogfonts
    rw [show (0 : Nat) + 1 = 1 from rfl, hlp] at hlr
    cases hlr
    rcases hcases with ⟨e, _⟩ | ⟨_, e, _⟩ | ⟨_, _, e⟩
    · cases e
    · exact absurd (by dsimp only; decide) e
    · rw [e]
      have := (fontLoops_attempts_exact cfg scenarioSubsystem rand lp 1
        ⟨[Call.RemoveFontResourceW, Call.AddFontResourceW, Call.HeapAlloc Buf.lpLogfonts,
          Call.GetFontResourceInfoW, Call.RemoveFontResourceW] ++ [Call.AddFontResourceW] ++
          [Call.GetDC, Call.SetGraphicsMode], 0⟩ scenario_never_fails).2
      simp only [coverageAttempts, List.count_append] at this ⊢
      rw [this]
      simp

/-- Witness for C8: the configuration with every optional test compiled out,
batches of 4 glyphs and 2 variations. -/
theorem C8_bare_scenario_witness :
    bareConfig.HARNESS_TEST_KERNING_PAIRS = false ∧
      bareConfig.HARNESS_TEST_GLYPH_OUTLINE = false ∧
      bareConfig.HARNESS_TEST_DRAWTEXT = false ∧
      bareConfig.HARNESS_TEST_UNISCRIBE = false ∧
      ∃ r, (∀ fuel, 1 ≤ fuel →
          wmain bareConfig scenarioSubsystem countingDraws 2 fuel = some r) ∧
        r.exitCode = 0 ∧
        coverageAttempts r.trace = bareConfig.FONT_VARIATION_COUNT ∧
        metricsQueries r.trace = [] ∧
        ∀ c ∈ r.trace, origin c ≠ Origin.outline ∧ origin c ≠ Origin.uniscribe ∧
          origin c ≠ Origin.shaping :=
  ⟨rfl, rfl, rfl, rfl, (C8_bare_scenario bareConfig countingDraws rfl rfl rfl rfl).1⟩

/-- C9. Alternate substitution.  Under every tag triple the glyph loop issues,
for the covered code points in order (`T k` is the history after the first `k`
code points), one alternate-glyph query followed by exactly the substitutions
it calls for: none when the query fails, and when it succeeds and reports
`cAlternates` alternates, one substitution for each alternate index
`1, 2, ..., cAlternates - 1` in that order (none when `cAlternates ≤ 1`, never
index 0).  The answers to the substitutions have no influence on the run: two
subsystems that differ only in what they answer to substitutions give the same
calls of `TestUniscribe`, so a failing substitution stops no later alternate,
glyph or tag triple. -/
theorem C9_alternate_substitution (cfg : Config) (o : Subsystem) (g : GLYPHSET)
    (t : List Call) :
    (∀ (script lang : Nat) (FeatureTags : Nat → Nat) (FeatureTag : Nat) (h : List Call),
      ∃ T : Nat → List Call,
        T 0 = h ∧
        featureStep o g script lang FeatureTags FeatureTag h = T (coveragePoints g).length ∧
        ∀ k, k < (coveragePoints g).length →
          T (k + 1)
            = T k ++
              Call.ScriptGetFontAlternateGlyphs script lang (FeatureTags FeatureTag)
                ((coveragePoints g).getD k 0 % 65536) ::
              substitutionsFor
                (o (T k ++ [Call.ScriptGetFontAlternateGlyphs script lang
                  (FeatureTags FeatureTag) ((coveragePoints g).getD k 0 % 65536)]))
                script lang (FeatureTags FeatureTag) ((coveragePoints g).getD k 0 % 65536)) ∧
      (∀ (r : Response) (script lang feature glyph : Nat),
        (r.ret ≠ 0 → substitutionsFor r script lang feature glyph = []) ∧
        (r.ret = 0 →
          substitutionsFor r script lang feature glyph
            = (List.range' 1 (r.count.toNat - 1)).map
                (fun a => Call.ScriptSubstituteSingleGlyph script lang feature a glyph))) ∧
      ∀ o1 : Subsystem,
        (∀ h : List Call,
          (∀ s l f a gl, h.getLast? ≠ some (Call.ScriptSubstituteSingleGlyph s l f a gl)) →
            o1 h = o h) →
        TestUniscribe cfg o1 g t = TestUniscribe cfg o g t := by
  refine ⟨?_, ?_, ?_⟩
  · intro script lang FeatureTags FeatureTag h
    refine ⟨fun k => ((coveragePoints g).take k).foldl
      (fun t1 j => alternatesStep o script lang (FeatureTags FeatureTag) j t1) h, ?_, ?_, ?_⟩
    · simp
    · unfold featureStep
      rw [glyphWalk_eq_foldl]
      dsimp only
      rw [List.take_length]
    · intro k hk
      dsimp only
      rw [foldl_take_succ _ _ k hk, alternatesStep_block]
  · intro r script lang feature glyph
    unfold substitutionsFor
    exact ⟨fun hne => if_neg hne, fun he => if_pos he⟩
  · intro o1 hagree
    exact TestUniscribe_congr cfg o1 o g hagree t

/-- Witness for C9: with three alternates per glyph the substitutions 1 and 2
follow each alternate query, and failing every substitution changes nothing. -/
theorem C9_alternate_substitution_witness :
    TestUniscribe fullConfig failingSubstitution smallCoverage []
        = TestUniscribe fullConfig shapingSubsystem smallCoverage [] ∧
      featureStep shapingSubsystem smallCoverage 100 200 (fun i => 300 + i) 0 []
        = [Call.ScriptGetFontAlternateGlyphs 100 200 300 65,
            Call.ScriptSubstituteSingleGlyph 100 200 300 1 65,
            Call.ScriptSubstituteSingleGlyph 100 200 300 2 65,
            Call.ScriptGetFontAlternateGlyphs 100 200 300 66,
            Call.ScriptSubstituteSingleGlyph 100 200 300 1 66,
            Call.ScriptSubstituteSingleGlyph 100 200 300 2 66] := by
  refine ⟨?_, by decide⟩
  apply (C9_alternate_substitution fullConfig shapingSubsystem smallCoverage []).2.2
  intro h hh
  unfold failingSubstitution
  split
  · rename_i s l f a gl heq
    exact absurd heq (hh s l f a gl)
  · rfl

/-- C10. Batch-buffer bounds.  For every coverage set, every subsystem and
every capacity `C ≥ 1`: `TestUniscribe` stores into its batch buffer once per
covered code point, every time at an index below `C` (the index is the value of
the counter when the glyph iteration starts); every `ScriptGetCMap` call it
issues passes a count between 1 and `C` together with that many characters; and
every store into the drawing buffer of `wmain`, the terminator included, is at
an index at most `C`. -/
theorem C10_batch_buffer_bounds (cfg : Config) (o : Subsystem) (g : GLYPHSET) (t : List Call)
    (hC : 1 ≤ cfg.DISPLAYED_GLYPHS_COUNT) :
    (uniscribeBatches cfg.DISPLAYED_GLYPHS_COUNT o g t).stores.length
        = (coveragePoints g).length ∧
      (∀ i ∈ (uniscribeBatches cfg.DISPLAYED_GLYPHS_COUNT o g t).stores,
        i < cfg.DISPLAYED_GLYPHS_COUNT) ∧
      Extends (cmapCountOK cfg.DISPLAYED_GLYPHS_COUNT) t (TestUniscribe cfg o g t) ∧
      (∀ i ∈ (wmainGlyphs cfg o g t).stores, i ≤ cfg.DISPLAYED_GLYPHS_COUNT) :=
  ⟨uniscribeBatches_stores_length _ o g t, (uniscribeBatches_bounds _ hC o g t).1,
    TestUniscribe_counts cfg hC o g t, wmainGlyphs_bounds cfg hC o g t⟩

/-- Witness for C10: batches of 4 glyphs over the coverage `[65, 71)`,
`[97, 100)`, with the indices actually stored to. -/
theorem C10_batch_buffer_bounds_witness :
    1 ≤ fullConfig.DISPLAYED_GLYPHS_COUNT ∧
      (uniscribeBatches fullConfig.DISPLAYED_GLYPHS_COUNT zeroSubsystem latinCoverage []).stores
        = [0, 1, 2, 3, 0, 1, 2, 3, 0] ∧
      (wmainGlyphs fullConfig zeroSubsystem latinCoverage []).stores
        = [0, 1, 2, 3, 4, 0, 1, 2, 3, 4, 0, 1] ∧
      (∀ i ∈ (uniscribeBatches fullConfig.DISPLAYED_GLYPHS_COUNT zeroSubsystem
          latinCoverage []).stores, i < fullConfig.DISPLAYED_GLYPHS_COUNT) ∧
      (∀ i ∈ (wmainGlyphs fullConfig zeroSubsystem latinCoverage []).stores,
          i ≤ fullConfig.DISPLAYED_GLYPHS_COUNT) :=
  ⟨by decide, by decide, by decide,
    (C10_batch_buffer_bounds fullConfig zeroSubsystem latinCoverage [] (by decide)).2.1,
    (C10_batch_buffer_bounds fullConfig zeroSubsystem latinCoverage [] (by decide)).2.2.2⟩

end BrokenType
